import Mathlib

/-!
# express-cli: the `createExpressApp` scaffolder

A shallow embedding of `src/index.js`.  The script asks three questions, resolves a target
directory, writes a manifest, three sub-directories, five templated source files, an optional
`tsconfig.json`, a `.gitignore` and a `README.md`, and finally shells out to `npm install`.

The embedding keeps the script's control flow and literals.  The three collaborators it calls
into are modelled explicitly:

* Node's `path` module (POSIX flavour): `join`, `normalize`, `basename`, `dirname`, `extname`;
* Node's `fs` module over an explicit filesystem state: `existsSync`, `mkdirSync`,
  `writeFileSync`;
* `child_process.execSync`, as an installer function supplied by the environment.

JavaScript strings are Lean `String`s; text processing is done on their character lists with
structurally recursive functions so that every definition evaluates on concrete inputs.

A run ends in one of three ways, kept apart by `Outcome`: it returns, it calls
`process.exit(code)`, or an exception of `fs` or of `execSync` escapes (the script catches
none).  The script is started by the bare call `createExpressApp();`, so an escaping exception
rejects a promise nobody handles and Node ends the process with exit code 1, the same code the
script passes to `process.exit` on a collision; `exitCode` gives the code of each outcome.
The world a run leaves consists of the filesystem and of the trace of effects performed:
console lines, directories created, files written and child processes run.  A failed `fs` call
leaves no effect in the trace; a child process is recorded with its exit status whether it
succeeded or not.

The statements about `createExpressApp` come at the end of the file, after the lemmas on paths,
on the phases of the script and on the filesystem below the target directory.
-/

namespace ExpressCli

/-! ## JavaScript string helpers -/

/-- ECMAScript `WhiteSpace` and `LineTerminator` code points: the characters removed by
`String.prototype.trim` and `trimStart`. -/
def isJsWhitespace (c : Char) : Bool :=
  let n := c.toNat
  n = 0x09 || n = 0x0A || n = 0x0B || n = 0x0C || n = 0x0D || n = 0x20 || n = 0xA0 ||
  n = 0x1680 || (0x2000 ≤ n && n ≤ 0x200A) || n = 0x2028 || n = 0x2029 || n = 0x202F ||
  n = 0x205F || n = 0x3000 || n = 0xFEFF

/-- `String.prototype.trimStart`. -/
def trimStart (s : String) : String :=
  ⟨s.data.dropWhile isJsWhitespace⟩

/-- `String.prototype.trim`. -/
def trim (s : String) : String :=
  ⟨((s.data.dropWhile isJsWhitespace).reverse.dropWhile isJsWhitespace).reverse⟩

/-- Split a character list at every occurrence of `sep` (always yields at least one piece). -/
def splitOnChar (sep : Char) : List Char → List (List Char)
  | [] => [[]]
  | c :: cs =>
    if c = sep then [] :: splitOnChar sep cs
    else
      match splitOnChar sep cs with
      | [] => [[c]]
      | s :: ss => (c :: s) :: ss

/-- `s.startsWith(pre)` on character lists. -/
def startsWith : List Char → List Char → Bool
  | _, [] => true
  | [], _ :: _ => false
  | c :: cs, p :: ps => c = p && startsWith cs ps

/-- `s.endsWith(suf)` on character lists. -/
def endsWith (s suf : List Char) : Bool :=
  startsWith s.reverse suf.reverse

/-! ## Node's `path` module (POSIX) -/

/-- The segment-level content of `normalizeString` in Node's `lib/path.js`: walk the
`/`-separated segments left to right keeping a stack (most recent segment first); empty
segments and `.` are skipped, `..` removes the previous kept segment when there is one that is
not itself `..`, and is kept only when `allowAboveRoot`. -/
def normalizeSegments (allowAboveRoot : Bool) :
    List (List Char) → List (List Char) → List (List Char)
  | stack, [] => stack.reverse
  | stack, seg :: rest =>
    if seg = [] ∨ seg = ['.'] then normalizeSegments allowAboveRoot stack rest
    else if seg = ['.', '.'] then
      match stack with
      | [] =>
        if allowAboveRoot then normalizeSegments allowAboveRoot [['.', '.']] rest
        else normalizeSegments allowAboveRoot [] rest
      | top :: below =>
        if top = ['.', '.'] then
          if allowAboveRoot then normalizeSegments allowAboveRoot (seg :: top :: below) rest
          else normalizeSegments allowAboveRoot (top :: below) rest
        else normalizeSegments allowAboveRoot below rest
    else normalizeSegments allowAboveRoot (seg :: stack) rest

/-- Segments joined with `/`. -/
def joinSegments : List (List Char) → List Char
  | [] => []
  | [s] => s
  | s :: t :: rest => s ++ '/' :: joinSegments (t :: rest)

/-- `path.normalize`. -/
def normalize (path : String) : String :=
  if path.data = [] then "."
  else
    let isAbsolute := path.data.head? = some '/'
    let trailingSeparator := path.data.getLast? = some '/'
    let body := joinSegments (normalizeSegments (!isAbsolute) [] (splitOnChar '/' path.data))
    if body = [] then
      if isAbsolute then "/" else if trailingSeparator then "./" else "."
    else
      ⟨(if isAbsolute then ['/'] else []) ++ body ++ (if trailingSeparator then ['/'] else [])⟩

/-- `path.join(a, b)`: the non-empty arguments joined with `/`, then normalised. -/
def join (a b : String) : String :=
  if a.data = [] then
    if b.data = [] then "." else normalize b
  else if b.data = [] then normalize a
  else normalize ⟨a.data ++ '/' :: b.data⟩

/-- The last non-empty `/`-separated segment of a character list, if any. -/
def lastSegment (cs : List Char) : List Char :=
  (((splitOnChar '/' cs).filter (fun s => s ≠ [])).getLast?).getD []

/-- `path.basename(p)`: trailing separators are ignored; the result is the final segment, or
the empty string when the path has none. -/
def basename (path : String) : String :=
  ⟨lastSegment path.data⟩

/-- `path.dirname(p)`: trailing separators and the last segment are dropped, together with
the one separator in front of that segment; the first character is never dropped.  A path with
no separator after its first character has the directory `/` (when absolute) or `.`. -/
def dirname (path : String) : String :=
  match path.data with
  | [] => "."
  | first :: rest =>
    let afterTrailing := rest.reverse.dropWhile (fun c => c = '/')
    match afterTrailing.dropWhile (fun c => c ≠ '/') with
    | [] => if first = '/' then "/" else "."
    | _ :: before =>
      if first = '/' ∧ before = [] then "//" else ⟨first :: before.reverse⟩

/-- `path.extname(p)`: from the last `.` of the basename to its end; empty when the basename
has no `.`, starts with its only `.`, or is `..`. -/
def extname (path : String) : String :=
  let base := lastSegment path.data
  if base = ['.', '.'] then ""
  else
    let tail := (base.reverse.takeWhile (fun c => c ≠ '.')).reverse
    if tail.length = base.length then ""
    else if tail.length + 1 = base.length then ""
    else ⟨'.' :: tail⟩

/-! ## JSON values and `JSON.stringify` -/

/-- The JSON values the script builds: strings, booleans, arrays and objects.  An object is
its list of own properties in insertion order (none of the keys used is an array index, so
insertion order is the enumeration order). -/
inductive Json where
  | str (s : String)
  | bool (b : Bool)
  | arr (items : List Json)
  | obj (fields : List (String × Json))

/-- Property assignment on a field list: an existing key keeps its position and gets the new
value, a new key is appended. -/
def setField (key : String) (value : Json) : List (String × Json) → List (String × Json)
  | [] => [(key, value)]
  | (k, v) :: rest => if k = key then (k, value) :: rest else (k, v) :: setField key value rest

/-- Property lookup on a field list. -/
def getField (key : String) : List (String × Json) → Option Json
  | [] => none
  | (k, v) :: rest => if k = key then some v else getField key rest

/-- The assignment `o[key] = value`. -/
def Json.set (o : Json) (key : String) (value : Json) : Json :=
  match o with
  | .obj fields => .obj (setField key value fields)
  | other => other

/-- The property read `o[key]`. -/
def Json.get (o : Json) (key : String) : Option Json :=
  match o with
  | .obj fields => getField key fields
  | _ => none

/-- The own property names of an object, in order. -/
def Json.keys (o : Json) : List String :=
  match o with
  | .obj fields => fields.map Prod.fst
  | _ => []

/-- The assignment `o[outer][key] = value` through the object stored under `outer`. -/
def Json.setIn (o : Json) (outer key : String) (value : Json) : Json :=
  match o.get outer with
  | some inner => o.set outer (inner.set key value)
  | none => o

/-- Lower-case hexadecimal digit. -/
def hexDigit (n : Nat) : Char :=
  if n < 10 then Char.ofNat (48 + n) else Char.ofNat (87 + n)

/-- One character of `QuoteJSONString`. -/
def quoteJsonChar (c : Char) : List Char :=
  let n := c.toNat
  if c = '"' then ['\\', '"']
  else if c = '\\' then ['\\', '\\']
  else if n = 8 then ['\\', 'b']
  else if n = 12 then ['\\', 'f']
  else if n = 10 then ['\\', 'n']
  else if n = 13 then ['\\', 'r']
  else if n = 9 then ['\\', 't']
  else if n < 32 then ['\\', 'u', '0', '0', hexDigit (n / 16), hexDigit (n % 16)]
  else [c]

/-- `QuoteJSONString`: the string between double quotes with the mandatory escapes. -/
def quoteJson (s : String) : List Char :=
  '"' :: (s.data.flatMap quoteJsonChar) ++ ['"']

/-- Lay out the already rendered members of an array or object: `[]` / `{}` when there is
none, otherwise one member per line at the deeper indentation. -/
def wrapMembers (opening closing : Char) (indent stepback : List Char)
    (members : List (List Char)) : List Char :=
  if members = [] then [opening, closing]
  else
    opening :: '\n' :: indent ++
      (List.intercalate (',' :: '\n' :: indent) members) ++ '\n' :: stepback ++ [closing]

mutual
/-- `SerializeJSONProperty` with a non-empty gap: `indent` is the current indentation. -/
def Json.render (gap indent : List Char) : Json → List Char
  | .str s => quoteJson s
  | .bool b => if b then "true".data else "false".data
  | .arr items => wrapMembers '[' ']' (indent ++ gap) indent (Json.renderItems gap (indent ++ gap) items)
  | .obj fields => wrapMembers '\x7b' '\x7d' (indent ++ gap) indent (Json.renderFields gap (indent ++ gap) fields)
/-- The rendered elements of an array. -/
def Json.renderItems (gap indent : List Char) : List Json → List (List Char)
  | [] => []
  | x :: xs => Json.render gap indent x :: Json.renderItems gap indent xs
/-- The rendered `"key": value` members of an object. -/
def Json.renderFields (gap indent : List Char) : List (String × Json) → List (List Char)
  | [] => []
  | (k, v) :: rest =>
    (quoteJson k ++ ':' :: ' ' :: Json.render gap indent v) :: Json.renderFields gap indent rest
end

/-- `JSON.stringify(value, null, 2)`. -/
def stringify2 (value : Json) : String :=
  ⟨Json.render [' ', ' '] [] value⟩

/-! ## The filesystem, the process and its effects -/

/-- A filesystem entry. -/
inductive Node where
  | dir
  | file (content : String)
  deriving DecidableEq

/-- A filesystem state: what is stored at each absolute path, given as its list of segments
below the root.  Symbolic links, permissions and quotas are outside the model. -/
abbrev FS := List String → Option Node

/-- The filesystem with `node` stored at `key`. -/
def FS.update (fs : FS) (key : List String) (node : Node) : FS :=
  fun q => if q = key then some node else fs q

/-- The segments a path string denotes: its non-empty `/`-separated pieces.  Every path the
script hands to `fs` is `process.cwd()` or an output of `path.join` on it, hence absolute and
free of `.` and `..` segments. -/
def fsKey (path : String) : List String :=
  ((splitOnChar '/' path.data).filter (fun s => s ≠ [])).map String.mk

/-- Whether the path string ends with a separator (such a path can only name a directory). -/
def hasTrailingSlash (path : String) : Bool :=
  path.data.getLast? = some '/'

/-- The errors `fs` calls and the child process can raise. -/
inductive Err where
  | EEXIST
  | ENOENT
  | ENOTDIR
  | EISDIR
  | childFailed (status : Nat)
  deriving DecidableEq

/-- What the script does to the outside world, in the order it does it: console lines,
directories created, files written, child processes run (with their exit status). -/
inductive Effect where
  | log (text : String)
  | mkdir (path : String) (recursive : Bool)
  | writeFile (path : String) (data : String)
  | exec (command : String) (cwd : String) (status : Nat)
  deriving DecidableEq

/-- The state the script runs against: the filesystem and the effects performed so far. -/
structure World where
  fs : FS
  trace : List Effect

/-- How a computation ends: with a value, by `process.exit(code)`, or with an uncaught
exception. -/
inductive Outcome (α : Type) where
  | ok (a : α)
  | exit (code : Nat)
  | throw (e : Err)
  deriving DecidableEq

/-- A computation of the script: from a world to an outcome and the world it leaves. -/
def Proc (α : Type) : Type := World → Outcome α × World

/-- A computation that returns at once. -/
def Proc.pure {α : Type} (a : α) : Proc α :=
  fun w => (Outcome.ok a, w)

/-- Sequencing: the continuation runs only after a normal return. -/
def Proc.bind {α β : Type} (m : Proc α) (f : α → Proc β) : Proc β :=
  fun w =>
    match m w with
    | (Outcome.ok a, w1) => f a w1
    | (Outcome.exit code, w1) => (Outcome.exit code, w1)
    | (Outcome.throw e, w1) => (Outcome.throw e, w1)

instance : Monad Proc where
  pure := Proc.pure
  bind := Proc.bind

/-- `console.log(text)`. -/
def consoleLog (text : String) : Proc Unit :=
  fun w => (Outcome.ok (), { w with trace := w.trace ++ [Effect.log text] })

/-- `process.exit(code)`. -/
def processExit {α : Type} (code : Nat) : Proc α :=
  fun w => (Outcome.exit code, w)

/-- Whether `path` names an existing entry of `fs`; a path with a trailing separator names
an entry only if that entry is a directory. -/
def pathExists (fs : FS) (path : String) : Bool :=
  match fs (fsKey path) with
  | none => false
  | some Node.dir => true
  | some (Node.file _) => !hasTrailingSlash path

/-- `fs.existsSync(path)`: never throws. -/
def existsSync (path : String) : Proc Bool :=
  fun w => (Outcome.ok (pathExists w.fs path), w)

/-- `fs.mkdirSync(path)` without options: the entry must not exist and its parent must be a
directory. -/
def mkdirSync (path : String) : Proc Unit :=
  fun w =>
    let key := fsKey path
    match w.fs key with
    | some _ => (Outcome.throw Err.EEXIST, w)
    | none =>
      if key = [] then (Outcome.throw Err.ENOENT, w)
      else
        match w.fs key.dropLast with
        | some Node.dir =>
          (Outcome.ok (),
            { fs := w.fs.update key Node.dir, trace := w.trace ++ [Effect.mkdir path false] })
        | some (Node.file _) => (Outcome.throw Err.ENOTDIR, w)
        | none => (Outcome.throw Err.ENOENT, w)

/-- The filesystem part of a recursive `mkdir`, on the reversed segment list (innermost
first): an existing directory is accepted, an existing file is an error, and a missing entry
is created after its parent has been. -/
def mkdirp (fs : FS) : List String → Except Err FS
  | [] =>
    match fs [] with
    | some Node.dir => Except.ok fs
    | some (Node.file _) => Except.error Err.EEXIST
    | none => Except.error Err.ENOENT
  | s :: parent =>
    match fs (s :: parent).reverse with
    | some Node.dir => Except.ok fs
    | some (Node.file _) => Except.error Err.EEXIST
    | none =>
      match fs parent.reverse with
      | some (Node.file _) => Except.error Err.ENOTDIR
      | _ =>
        match mkdirp fs parent with
        | Except.ok fs1 => Except.ok (fs1.update (s :: parent).reverse Node.dir)
        | Except.error e => Except.error e

/-- `fs.mkdirSync(path, \x7b recursive: true \x7d)`. -/
def mkdirSyncRecursive (path : String) : Proc Unit :=
  fun w =>
    match mkdirp w.fs (fsKey path).reverse with
    | Except.ok fs1 =>
      (Outcome.ok (), { fs := fs1, trace := w.trace ++ [Effect.mkdir path true] })
    | Except.error e => (Outcome.throw e, w)

/-- `fs.writeFileSync(path, data)`: creates or truncates a regular file; the parent must be a
directory and the path must not name a directory. -/
def writeFileSync (path : String) (data : String) : Proc Unit :=
  fun w =>
    let key := fsKey path
    if hasTrailingSlash path then (Outcome.throw Err.EISDIR, w)
    else
      match w.fs key with
      | some Node.dir => (Outcome.throw Err.EISDIR, w)
      | _ =>
        if key = [] then (Outcome.throw Err.EISDIR, w)
        else
          match w.fs key.dropLast with
          | some Node.dir =>
            (Outcome.ok (),
              { fs := w.fs.update key (Node.file data),
                trace := w.trace ++ [Effect.writeFile path data] })
          | some (Node.file _) => (Outcome.throw Err.ENOTDIR, w)
          | none => (Outcome.throw Err.ENOENT, w)

/-- `Array.prototype.forEach` with an effectful callback. -/
def forEach {α : Type} (xs : List α) (f : α → Proc Unit) : Proc Unit :=
  match xs with
  | [] => Proc.pure ()
  | x :: rest => Proc.bind (f x) (fun _ => forEach rest f)

/-- A JavaScript `if (cond) body` with no `else` branch. -/
def ifThen (cond : Prop) [Decidable cond] (body : Proc Unit) : Proc Unit :=
  if cond then body else Proc.pure ()

/-- The package manager as the environment provides it: given the command line, the working
directory and the filesystem, an exit status and the filesystem it leaves. -/
abbrev Installer := String → String → FS → Nat × FS

/-- `execSync(command, \x7b cwd, stdio: "inherit" \x7d)`: runs the command to completion and throws
when it exits with a non-zero status. -/
def execSync (npm : Installer) (command : String) (cwd : String) : Proc Unit :=
  fun w =>
    let result := npm command cwd w.fs
    let w1 : World :=
      { fs := result.2, trace := w.trace ++ [Effect.exec command cwd result.1] }
    if result.1 = 0 then (Outcome.ok (), w1)
    else (Outcome.throw (Err.childFailed result.1), w1)

/-! ## The templates of `createExpressApp` -/

/-- The `appFile` template literal, JavaScript branch (source lines 93-104). -/
def appFileJavaScript : String :=
  "\n" ++
  "import express from \"express\";\n" ++
  "import router from \"./routes/index.js\";\n" ++
  "import logger from \"./middlewares/logger.js\";\n" ++
  "\n" ++
  "const app = express();\n" ++
  "app.use(express.json());\n" ++
  "app.use(logger);\n" ++
  "app.use(\"/\", router);\n" ++
  "\n" ++
  "export default app;\n"

/-- The `appFile` template literal, other branch (source lines 105-116). -/
def appFileTypeScript : String :=
  "\n" ++
  "import express from \"express\";\n" ++
  "import router from \"./routes/index\";\n" ++
  "import logger from \"./middlewares/logger\";\n" ++
  "\n" ++
  "const app = express();\n" ++
  "app.use(express.json());\n" ++
  "app.use(logger);\n" ++
  "app.use(\"/\", router);\n" ++
  "\n" ++
  "export default app;\n"

/-- The `rootIndexFile` template literal, JavaScript branch (source lines 120-125). -/
def rootIndexFileJavaScript : String :=
  "\n" ++
  "import app from \"./src/app.js\";\n" ++
  "\n" ++
  "const PORT = process.env.PORT || 3000;\n" ++
  "app.listen(PORT, () => console.log(`🚀 Server running on port $\x7bPORT\x7d`));\n"

/-- The `rootIndexFile` template literal, other branch (source lines 126-131). -/
def rootIndexFileTypeScript : String :=
  "\n" ++
  "import app from \"./src/app\";\n" ++
  "\n" ++
  "const PORT = process.env.PORT || 3000;\n" ++
  "app.listen(PORT, () => console.log(`🚀 Server running on port $\x7bPORT\x7d`));\n"

/-- The `routeFile` template literal, JavaScript branch (source lines 135-143). -/
def routeFileJavaScript : String :=
  "\n" ++
  "import express from \"express\";\n" ++
  "import \x7b homeController \x7d from \"../controllers/home.js\";\n" ++
  "\n" ++
  "const router = express.Router();\n" ++
  "router.get(\"/\", homeController);\n" ++
  "\n" ++
  "export default router;\n"

/-- The `routeFile` template literal, other branch (source lines 144-152). -/
def routeFileTypeScript : String :=
  "\n" ++
  "import express from \"express\";\n" ++
  "import \x7b homeController \x7d from \"../controllers/home\";\n" ++
  "\n" ++
  "const router = express.Router();\n" ++
  "router.get(\"/\", homeController);\n" ++
  "\n" ++
  "export default router;\n"

/-- The `controllerFile` template literal, JavaScript branch (source lines 156-160). -/
def controllerFileJavaScript : String :=
  "\n" ++
  "export const homeController = (req, res) => \x7b\n" ++
  "  res.json(\x7b message: \"Hello from Express + JavaScript!\" \x7d);\n" ++
  "\x7d;\n"

/-- The `controllerFile` template literal, other branch (source lines 161-167). -/
def controllerFileTypeScript : String :=
  "\n" ++
  "import \x7b Request, Response \x7d from \"express\";\n" ++
  "\n" ++
  "export const homeController = (req: Request, res: Response) => \x7b\n" ++
  "  res.json(\x7b message: \"Hello from Express + TypeScript!\" \x7d);\n" ++
  "\x7d;\n"

/-- The `middlewareFile` template literal, JavaScript branch (source lines 171-178). -/
def middlewareFileJavaScript : String :=
  "\n" ++
  "const logger = (req, res, next) => \x7b\n" ++
  "  console.log(`[LOG] $\x7breq.method\x7d $\x7breq.url\x7d`);\n" ++
  "  next();\n" ++
  "\x7d;\n" ++
  "\n" ++
  "export default logger;\n"

/-- The `middlewareFile` template literal, other branch (source lines 179-188). -/
def middlewareFileTypeScript : String :=
  "\n" ++
  "import \x7b Request, Response, NextFunction \x7d from \"express\";\n" ++
  "\n" ++
  "const logger = (req: Request, res: Response, next: NextFunction) => \x7b\n" ++
  "  console.log(`[LOG] $\x7breq.method\x7d $\x7breq.url\x7d`);\n" ++
  "  next();\n" ++
  "\x7d;\n" ++
  "\n" ++
  "export default logger;\n"

/-- The `gitignore` template literal (source lines 218-224). -/
def gitignore : String :=
  "\n" ++
  "node_modules\n" ++
  "dist\n" ++
  ".env\n" ++
  ".DS_Store\n" ++
  "npm-debug.log*\n"

/-- The `readme` template literal (source lines 228-253), with its four interpolations:
`pkg.name`, `language`, `ext` (twice) and the quick-start directory
`projectName === "." ? "." : pkg.name`. -/
def readme (pkgName language ext projectName : String) : String :=
  "\n" ++
  "# " ++ pkgName ++ "\n" ++
  "\n" ++
  "A simple Express " ++ language ++ " starter generated with `create-express-app`.\n" ++
  "\n" ++
  "## 🚀 Folder Structure\n" ++
  "```\n" ++
  ".\n" ++
  " ├── src/\n" ++
  " │   ├── routes/\n" ++
  " │   ├── controllers/\n" ++
  " │   ├── middlewares/\n" ++
  " │   └── app." ++ ext ++ "\n" ++
  " ├── index." ++ ext ++ "\n" ++
  " ├── package.json\n" ++
  " ├── .gitignore\n" ++
  " └── README.md\n" ++
  "```\n" ++
  "\n" ++
  "## 🧰 Quick Start\n" ++
  "```bash\n" ++
  "cd " ++ (if projectName = "." then "." else pkgName) ++ "\n" ++
  "npm install\n" ++
  "npm run dev\n" ++
  "```\n"

/-- The answers of the three prompts (source lines 14-35).  `language` is a string, as in the
script; the list prompt offers `"JavaScript"` and `"TypeScript"`. -/
structure Answers where
  projectName : String
  language : String
  extraPackages : String

/-- The `projectDir` of source lines 36-37. -/
def projectDirOf (cwd projectName : String) : String :=
  if projectName = "." then cwd else join cwd projectName

/-- The object literal bound to `pkg` at source lines 49-57, before the language branch. -/
def pkgLiteral (projectDir language : String) : Json :=
  Json.obj [
    ("name", Json.str (basename projectDir)),
    ("version", Json.str "1.0.0"),
    ("main", Json.str (if language = "TypeScript" then "dist/index.js" else "index.js")),
    ("license", Json.str "MIT"),
    ("scripts", Json.obj []),
    ("dependencies", Json.obj [("express", Json.str "^4.19.2")]),
    ("devDependencies", Json.obj [])]

/-- The value of `pkg` after the language branch of source lines 59-77. -/
def pkg (projectDir language : String) : Json :=
  let pkg0 := pkgLiteral projectDir language
  if language = "JavaScript" then
    let pkg1 := pkg0.set "scripts"
      (Json.obj [("start", Json.str "node index.js"), ("dev", Json.str "nodemon index.js")])
    pkg1.setIn "devDependencies" "nodemon" (Json.str "^3.1.0")
  else
    let pkg1 := pkg0.set "scripts"
      (Json.obj [
        ("dev", Json.str "ts-node-dev --respawn index.ts"),
        ("build", Json.str "tsc"),
        ("start", Json.str "node dist/index.js")])
    pkg1.set "devDependencies"
      (Json.obj [
        ("typescript", Json.str "^5.3.3"),
        ("ts-node-dev", Json.str "^2.0.0"),
        ("@types/express", Json.str "^4.17.21"),
        ("@types/node", Json.str "^20.5.7")])

/-- The expression `pkg.name`: the string stored under `name`. -/
def pkgName (projectDir language : String) : String :=
  match (pkg projectDir language).get "name" with
  | some (Json.str s) => s
  | _ => "undefined"

/-- The `folders` array of source line 85. -/
def folders : List String :=
  ["src/routes", "src/controllers", "src/middlewares"]

/-- The `ext` of source line 88. -/
def extOf (language : String) : String :=
  if language = "TypeScript" then "ts" else "js"

/-- The `appFile` of source lines 91-116. -/
def appFile (language : String) : String :=
  if language = "JavaScript" then appFileJavaScript else appFileTypeScript

/-- The `rootIndexFile` of source lines 118-131. -/
def rootIndexFile (language : String) : String :=
  if language = "JavaScript" then rootIndexFileJavaScript else rootIndexFileTypeScript

/-- The `routeFile` of source lines 133-152. -/
def routeFile (language : String) : String :=
  if language = "JavaScript" then routeFileJavaScript else routeFileTypeScript

/-- The `controllerFile` of source lines 154-167. -/
def controllerFile (language : String) : String :=
  if language = "JavaScript" then controllerFileJavaScript else controllerFileTypeScript

/-- The `middlewareFile` of source lines 169-188. -/
def middlewareFile (language : String) : String :=
  if language = "JavaScript" then middlewareFileJavaScript else middlewareFileTypeScript

/-- The `tsconfig` object of source lines 199-210. -/
def tsconfig : Json :=
  Json.obj [
    ("compilerOptions", Json.obj [
      ("target", Json.str "ES2020"),
      ("module", Json.str "CommonJS"),
      ("rootDir", Json.str "."),
      ("outDir", Json.str "dist"),
      ("esModuleInterop", Json.bool true),
      ("strict", Json.bool true),
      ("skipLibCheck", Json.bool true)]),
    ("include", Json.arr [Json.str "src/**/*", Json.str "index.ts"])]

/-! ## `createExpressApp` -/

/-- The body of `createExpressApp` from the destructuring of the answers on (source lines
35-267); `cwd` is the value of `process.cwd()` and `npm` the package manager that `execSync`
reaches. -/
def createExpressApp (npm : Installer) (cwd : String) (answers : Answers) : Proc Unit := do
  consoleLog "🛠️  Welcome to Create Express App!\n"
  let projectName := answers.projectName
  let language := answers.language
  let extraPackages := answers.extraPackages
  let projectDir := if projectName = "." then cwd else join cwd projectName
  let collision ← (if projectName ≠ "." then existsSync projectDir else Proc.pure false)
  ifThen (collision = true) (do
    consoleLog ("❌ Folder \"" ++ projectName ++ "\" already exists. Please choose another name.")
    processExit 1)
  ifThen (projectName ≠ ".") (mkdirSync projectDir)
  consoleLog ("\n📦 Creating " ++ language ++ " Express app in " ++ projectDir ++ "\n")
  -- Step 1: create package.json
  writeFileSync (join projectDir "package.json") (stringify2 (pkg projectDir language))
  -- Step 2: create folders
  forEach folders (fun f => mkdirSyncRecursive (join projectDir f))
  let ext := if language = "TypeScript" then "ts" else "js"
  -- Step 3: template files; write files
  writeFileSync (join projectDir ("index." ++ ext)) (trimStart (rootIndexFile language))
  writeFileSync (join projectDir ("src/app." ++ ext)) (trimStart (appFile language))
  writeFileSync (join projectDir ("src/routes/index." ++ ext)) (trimStart (routeFile language))
  writeFileSync (join projectDir ("src/controllers/home." ++ ext))
    (trimStart (controllerFile language))
  writeFileSync (join projectDir ("src/middlewares/logger." ++ ext))
    (trimStart (middlewareFile language))
  -- Step 4: tsconfig (for TS only)
  ifThen (language = "TypeScript")
    (writeFileSync (join projectDir "tsconfig.json") (stringify2 tsconfig))
  -- Step 5: .gitignore
  writeFileSync (join projectDir ".gitignore") (trimStart gitignore)
  -- Step 6: README.md
  writeFileSync (join projectDir "README.md")
    (trimStart (readme (pkgName projectDir language) language ext projectName))
  -- Step 7: install dependencies
  consoleLog "\n📥 Installing dependencies...\n"
  execSync npm "npm install" projectDir
  ifThen (trim extraPackages ≠ "") (do
    consoleLog ("\n📦 Installing extra packages: " ++ extraPackages ++ "\n")
    execSync npm ("npm install " ++ extraPackages) projectDir)
  consoleLog "\n✅ Setup complete!"
  consoleLog ("\nTo start:\n  cd " ++
    (if projectName = "." then "." else pkgName projectDir language) ++ "\n  npm run dev\n")

/-- One run of the script from filesystem `fs`, with an empty effect trace. -/
def run (npm : Installer) (cwd : String) (answers : Answers) (fs : FS) : Outcome Unit × World :=
  createExpressApp npm cwd answers { fs := fs, trace := [] }

/-- The exit code of the Node process for each way a run can end.  The module ends with the bare
call `createExpressApp();`: after a normal return the process exits with 0, `process.exit(code)`
exits with `code`, and an exception escaping the `async` function rejects the returned promise,
which has no handler, so that Node reports the error and exits with 1. -/
def exitCode : Outcome Unit → Nat
  | Outcome.ok _ => 0
  | Outcome.exit code => code
  | Outcome.throw _ => 1

/-! ## Reading a trace -/

/-- The files written, in order: path and content of every `writeFile` effect. -/
def writesOf : List Effect → List (String × String)
  | [] => []
  | Effect.writeFile path data :: rest => (path, data) :: writesOf rest
  | _ :: rest => writesOf rest

/-- The directories created, in order: path and `recursive` flag of every `mkdir` effect. -/
def mkdirsOf : List Effect → List (String × Bool)
  | [] => []
  | Effect.mkdir path recursive :: rest => (path, recursive) :: mkdirsOf rest
  | _ :: rest => mkdirsOf rest

/-- The child processes run, in order: command line, working directory and exit status. -/
def execsOf : List Effect → List (String × String × Nat)
  | [] => []
  | Effect.exec command cwd status :: rest => (command, cwd, status) :: execsOf rest
  | _ :: rest => execsOf rest

/-- The filesystem effects of a trace (directory creations and file writes), in order. -/
def fsEffects : List Effect → List Effect
  | [] => []
  | Effect.mkdir path recursive :: rest => Effect.mkdir path recursive :: fsEffects rest
  | Effect.writeFile path data :: rest => Effect.writeFile path data :: fsEffects rest
  | _ :: rest => fsEffects rest

/-! ## The phases of `createExpressApp` -/

/-- Source lines 12 and 36-42: the greeting and the collision check. -/
def checkTarget (cwd : String) (answers : Answers) : Proc Unit := do
  consoleLog "🛠️  Welcome to Create Express App!\n"
  let collision ← (if answers.projectName ≠ "." then
    existsSync (projectDirOf cwd answers.projectName) else Proc.pure false)
  ifThen (collision = true) (do
    consoleLog ("❌ Folder \"" ++ answers.projectName ++
      "\" already exists. Please choose another name.")
    processExit 1)

/-- Source line 44: creation of the target directory. -/
def makeTarget (cwd : String) (answers : Answers) : Proc Unit :=
  ifThen (answers.projectName ≠ ".") (mkdirSync (projectDirOf cwd answers.projectName))

/-- Source lines 46-254: the manifest, the folders and the files. -/
def writeProject (cwd : String) (answers : Answers) : Proc Unit := do
  let projectName := answers.projectName
  let language := answers.language
  let projectDir := projectDirOf cwd projectName
  consoleLog ("\n📦 Creating " ++ language ++ " Express app in " ++ projectDir ++ "\n")
  writeFileSync (join projectDir "package.json") (stringify2 (pkg projectDir language))
  forEach folders (fun f => mkdirSyncRecursive (join projectDir f))
  let ext := if language = "TypeScript" then "ts" else "js"
  writeFileSync (join projectDir ("index." ++ ext)) (trimStart (rootIndexFile language))
  writeFileSync (join projectDir ("src/app." ++ ext)) (trimStart (appFile language))
  writeFileSync (join projectDir ("src/routes/index." ++ ext)) (trimStart (routeFile language))
  writeFileSync (join projectDir ("src/controllers/home." ++ ext))
    (trimStart (controllerFile language))
  writeFileSync (join projectDir ("src/middlewares/logger." ++ ext))
    (trimStart (middlewareFile language))
  ifThen (language = "TypeScript")
    (writeFileSync (join projectDir "tsconfig.json") (stringify2 tsconfig))
  writeFileSync (join projectDir ".gitignore") (trimStart gitignore)
  writeFileSync (join projectDir "README.md")
    (trimStart (readme (pkgName projectDir language) language ext projectName))

/-- Source lines 256-266: the installs and the closing messages. -/
def installDependencies (npm : Installer) (cwd : String) (answers : Answers) : Proc Unit := do
  let projectName := answers.projectName
  let extraPackages := answers.extraPackages
  let projectDir := projectDirOf cwd projectName
  consoleLog "\n📥 Installing dependencies...\n"
  execSync npm "npm install" projectDir
  ifThen (trim extraPackages ≠ "") (do
    consoleLog ("\n📦 Installing extra packages: " ++ extraPackages ++ "\n")
    execSync npm ("npm install " ++ extraPackages) projectDir)
  consoleLog "\n✅ Setup complete!"
  consoleLog ("\nTo start:\n  cd " ++
    (if projectName = "." then "." else pkgName projectDir answers.language) ++
    "\n  npm run dev\n")

/-- The filesystem effects `createExpressApp` performs when nothing fails, in order: the
target directory (unless the name is `"."`), the manifest, the three folders, the five source
files, `tsconfig.json` for TypeScript, `.gitignore` and `README.md`. -/
def plannedEffects (cwd : String) (answers : Answers) : List Effect :=
  let projectName := answers.projectName
  let language := answers.language
  let projectDir := projectDirOf cwd projectName
  let ext := extOf language
  (if projectName ≠ "." then [Effect.mkdir projectDir false] else []) ++
  [Effect.writeFile (join projectDir "package.json") (stringify2 (pkg projectDir language)),
   Effect.mkdir (join projectDir "src/routes") true,
   Effect.mkdir (join projectDir "src/controllers") true,
   Effect.mkdir (join projectDir "src/middlewares") true,
   Effect.writeFile (join projectDir ("index." ++ ext)) (trimStart (rootIndexFile language)),
   Effect.writeFile (join projectDir ("src/app." ++ ext)) (trimStart (appFile language)),
   Effect.writeFile (join projectDir ("src/routes/index." ++ ext))
     (trimStart (routeFile language)),
   Effect.writeFile (join projectDir ("src/controllers/home." ++ ext))
     (trimStart (controllerFile language)),
   Effect.writeFile (join projectDir ("src/middlewares/logger." ++ ext))
     (trimStart (middlewareFile language))] ++
  (if language = "TypeScript" then
    [Effect.writeFile (join projectDir "tsconfig.json") (stringify2 tsconfig)] else []) ++
  [Effect.writeFile (join projectDir ".gitignore") (trimStart gitignore),
   Effect.writeFile (join projectDir "README.md")
     (trimStart (readme (pkgName projectDir language) language ext projectName))]

/-- Source lines 44-254 as one computation: the target directory, then the project. -/
def scaffold (cwd : String) (answers : Answers) : Proc Unit :=
  Proc.bind (makeTarget cwd answers) (fun _ => writeProject cwd answers)

/-- The condition of source line 39: the name is not `"."` and the target already exists. -/
def collides (cwd : String) (answers : Answers) (fs : FS) : Bool :=
  answers.projectName ≠ "." && pathExists fs (projectDirOf cwd answers.projectName)

/-- A computation that performs filesystem effects along `plan`: from every world it appends
effects whose filesystem part is an initial segment of `plan` (all of `plan` when it returns
normally), runs no child process and never calls `process.exit`. -/
def Performs {α : Type} (m : Proc α) (plan : List Effect) : Prop :=
  ∀ w : World, ∃ es : List Effect,
    (m w).2.trace = w.trace ++ es ∧ fsEffects es <+: plan ∧ execsOf es = [] ∧
    (∀ code, (m w).1 ≠ Outcome.exit code) ∧
    (∀ a, (m w).1 = Outcome.ok a → fsEffects es = plan)

/-- A computation that never removes or replaces the directory stored at `key`. -/
def KeepsDir {α : Type} (key : List String) (m : Proc α) : Prop :=
  ∀ w : World, w.fs key = some Node.dir → (m w).2.fs key = some Node.dir

/-! ## A concrete environment -/

/-- A small filesystem: `/`, `/home` and the empty directory `/home/u`. -/
def exampleFs : FS :=
  fun p => if p = [] ∨ p = ["home"] ∨ p = ["home", "u"] then some Node.dir else none

/-- A package manager that always succeeds and leaves a `node_modules` directory in its
working directory. -/
def exampleNpm : Installer :=
  fun _ cwd fs => (0, fs.update (fsKey cwd ++ ["node_modules"]) Node.dir)

/-- A package manager that always fails with status 1 and touches nothing. -/
def failingNpm : Installer :=
  fun _ _ fs => (1, fs)

/-! ## Paths below an absolute directory -/

/-- A segment that `path.normalize` keeps as it is: not empty, not `.`, not `..`, and without a
separator. -/
def isCleanSegment (s : List Char) : Bool :=
  s ≠ [] && s ≠ ['.'] && s ≠ ['.', '.'] && !s.contains '/'

/-- The segments of an absolute path after normalisation. -/
def absSegments (dir : String) : List (List Char) :=
  normalizeSegments false [] (splitOnChar '/' dir.data)

/-- The text that `path.join(dir, rel)` puts in front of a plain relative path `rel` when
`dir` is absolute: the normalised `dir` followed by one separator. -/
def dirPrefix (dir : String) : List Char :=
  '/' :: (if absSegments dir = [] then [] else joinSegments (absSegments dir) ++ ['/'])

/-! ## Well-formed filesystems and the view below a directory -/

/-- A filesystem is a tree: whatever exists has a directory as its parent. -/
def WellFormed (fs : FS) : Prop :=
  ∀ (p : List String) (s : String), fs (p ++ [s]) ≠ none → fs p = some Node.dir

/-- An entry without its content. -/
def Node.shape : Node → Node
  | Node.dir => Node.dir
  | Node.file _ => Node.file ""

/-- The entries of `fs` below `key`, contents aside, are those of `shape`. -/
def Under (key : List String) (fs shape : FS) : Prop :=
  ∀ q : List String, (fs (key ++ q)).map Node.shape = shape q

/-- The shape of an empty directory. -/
def emptyDir : FS :=
  fun q => if q = [] then some Node.dir else none

/-- The result of `mkdirp` when it succeeds, the filesystem itself otherwise. -/
def mkdirpResult (fs : FS) (rev : List String) : FS :=
  match mkdirp fs rev with
  | Except.ok fs1 => fs1
  | Except.error _ => fs

/-- Whether `mkdirp` succeeds. -/
def mkdirpOk (fs : FS) (rev : List String) : Bool :=
  match mkdirp fs rev with
  | Except.ok _ => true
  | Except.error _ => false

/-- A computation that returns normally from every world whose entries below `key` have the
shape `before`, leaving them with the shape `after`. -/
def Succeeds (key : List String) (before after : FS) (m : Proc Unit) : Prop :=
  ∀ w : World, Under key w.fs before →
    ∃ w1 : World, m w = (Outcome.ok (), w1) ∧ Under key w1.fs after

/-- A computation that returns normally from every world whose entries below `key` have the
shape `before`. -/
def Runs (key : List String) (before : FS) (m : Proc Unit) : Prop :=
  ∀ w : World, Under key w.fs before → ∃ w1 : World, m w = (Outcome.ok (), w1)

/-! ## The generated project, relative to the target directory -/

/-- The relative paths handed to `path.join(projectDir, ...)` by the `writeFileSync` calls of
`createExpressApp`, in the order of the calls. -/
def layout (language : String) : List String :=
  ["package.json",
   "index." ++ extOf language,
   "src/app." ++ extOf language,
   "src/routes/index." ++ extOf language,
   "src/controllers/home." ++ extOf language,
   "src/middlewares/logger." ++ extOf language] ++
  (if language = "TypeScript" then ["tsconfig.json"] else []) ++
  [".gitignore", "README.md"]

/-- The five templated source files: relative path and content as written. -/
def sourceFiles (language : String) : List (String × String) :=
  [("index." ++ extOf language, trimStart (rootIndexFile language)),
   ("src/app." ++ extOf language, trimStart (appFile language)),
   ("src/routes/index." ++ extOf language, trimStart (routeFile language)),
   ("src/controllers/home." ++ extOf language, trimStart (controllerFile language)),
   ("src/middlewares/logger." ++ extOf language, trimStart (middlewareFile language))]

/-- The module specifier of a line of the form `import ... "specifier";`. -/
def importSpecifier (line : List Char) : Option String :=
  if startsWith line "import ".data then
    match splitOnChar '"' line with
    | _ :: spec :: _ => some ⟨spec⟩
    | _ => none
  else none

/-- The module specifiers of the import statements of a source text. -/
def importSpecifiers (content : String) : List String :=
  (splitOnChar '\n' content.data).filterMap importSpecifier

/-- A relative specifier: it starts with `./` or `../`. -/
def isInternal (spec : String) : Bool :=
  startsWith spec.data "./".data || startsWith spec.data "../".data

/-- The internal (relative) imports of a source text. -/
def internalImports (content : String) : List String :=
  (importSpecifiers content).filter isInternal

/-- The file an internal import of the file at `file` names: the specifier resolved against
the directory of `file`, with `.ts` appended for TypeScript (whose imports carry no
extension). -/
def resolveImport (language file spec : String) : String :=
  join (dirname file) spec ++ (if language = "TypeScript" then ".ts" else "")

/-- The last space-separated word of a command line. -/
def lastWord (command : String) : String :=
  ⟨((splitOnChar ' ' command.data).getLast?).getD []⟩

/-- The script stored under `scripts[name]` in the manifest. -/
def scriptOf (projectDir language name : String) : Option String :=
  match (pkg projectDir language).get "scripts" with
  | some scripts =>
    match scripts.get name with
    | some (Json.str s) => some s
    | _ => none
  | none => none

/-- The entries of `tsconfig.include`. -/
def tsconfigInclude : List String :=
  match tsconfig.get "include" with
  | some (Json.arr items) =>
    items.filterMap (fun item => match item with | Json.str s => some s | _ => none)
  | _ => []

/-! ## Lemmas: computations -/

theorem Proc.bind_assoc {α β γ : Type} (m : Proc α) (f : α → Proc β) (g : β → Proc γ) :
    Proc.bind (Proc.bind m f) g = Proc.bind m (fun a => Proc.bind (f a) g) := by
  funext w
  simp only [Proc.bind]
  rcases m w with ⟨o, w1⟩
  cases o <;> rfl

theorem createExpressApp_phases (npm : Installer) (cwd : String) (answers : Answers) :
    createExpressApp npm cwd answers =
      Proc.bind (checkTarget cwd answers) (fun _ =>
        Proc.bind (makeTarget cwd answers) (fun _ =>
          Proc.bind (writeProject cwd answers) (fun _ =>
            installDependencies npm cwd answers))) := by
  simp only [createExpressApp, checkTarget, makeTarget, writeProject, installDependencies,
    projectDirOf, bind, pure, Proc.bind_assoc]

/-! ## Lemmas: traces -/

theorem writesOf_append (xs ys : List Effect) :
    writesOf (xs ++ ys) = writesOf xs ++ writesOf ys := by
  induction xs with
  | nil => rfl
  | cons e rest ih => cases e <;> simp [writesOf, ih]

theorem mkdirsOf_append (xs ys : List Effect) :
    mkdirsOf (xs ++ ys) = mkdirsOf xs ++ mkdirsOf ys := by
  induction xs with
  | nil => rfl
  | cons e rest ih => cases e <;> simp [mkdirsOf, ih]

theorem execsOf_append (xs ys : List Effect) :
    execsOf (xs ++ ys) = execsOf xs ++ execsOf ys := by
  induction xs with
  | nil => rfl
  | cons e rest ih => cases e <;> simp [execsOf, ih]

theorem fsEffects_append (xs ys : List Effect) :
    fsEffects (xs ++ ys) = fsEffects xs ++ fsEffects ys := by
  induction xs with
  | nil => rfl
  | cons e rest ih => cases e <;> simp [fsEffects, ih]

theorem writesOf_fsEffects (xs : List Effect) : writesOf (fsEffects xs) = writesOf xs := by
  induction xs with
  | nil => rfl
  | cons e rest ih => cases e <;> simp [writesOf, fsEffects, ih]

theorem mkdirsOf_fsEffects (xs : List Effect) : mkdirsOf (fsEffects xs) = mkdirsOf xs := by
  induction xs with
  | nil => rfl
  | cons e rest ih => cases e <;> simp [mkdirsOf, fsEffects, ih]

/-! ## Lemmas: the effect plan -/

theorem performs_pure {α : Type} (a : α) : Performs (Proc.pure a) [] := by
  intro w
  exact ⟨[], by simp [Proc.pure], by simp [fsEffects], rfl, by simp [Proc.pure],
    fun _ _ => rfl⟩

theorem performs_bind {α β : Type} {m : Proc α} {f : α → Proc β} {p1 p2 : List Effect}
    (hm : Performs m p1) (hf : ∀ a, Performs (f a) p2) :
    Performs (Proc.bind m f) (p1 ++ p2) := by
  intro w
  obtain ⟨es1, ht1, hp1, hx1, hne1, hok1⟩ := hm w
  rcases hmw : m w with ⟨o, w1⟩
  rw [hmw] at ht1 hne1 hok1
  cases o with
  | ok a =>
    obtain ⟨es2, ht2, hp2, hx2, hne2, hok2⟩ := hf a w1
    have hfs : fsEffects es1 = p1 := hok1 a rfl
    refine ⟨es1 ++ es2, ?_, ?_, ?_, ?_, ?_⟩
    · simp only [Proc.bind, hmw]
      rw [ht2, ht1, List.append_assoc]
    · rw [fsEffects_append, hfs]
      exact (List.prefix_append_right_inj p1).2 hp2
    · rw [execsOf_append, hx1, hx2]; rfl
    · intro code
      simp only [Proc.bind, hmw]
      exact hne2 code
    · intro b hb
      simp only [Proc.bind, hmw] at hb
      rw [fsEffects_append, hfs, hok2 b hb]
  | exit code => exact absurd rfl (hne1 code)
  | throw e =>
    refine ⟨es1, ?_, ?_, hx1, ?_, ?_⟩
    · simp only [Proc.bind, hmw]; exact ht1
    · exact hp1.trans (List.prefix_append p1 p2)
    · intro code; simp [Proc.bind, hmw]
    · intro b hb; simp [Proc.bind, hmw] at hb

theorem performs_consoleLog (text : String) : Performs (consoleLog text) [] := by
  intro w
  exact ⟨[Effect.log text], rfl, by simp [fsEffects], rfl, by simp [ExpressCli.consoleLog],
    fun _ _ => rfl⟩

theorem performs_mkdirSync (path : String) :
    Performs (mkdirSync path) [Effect.mkdir path false] := by
  intro w
  unfold ExpressCli.mkdirSync
  dsimp only
  split
  · exact ⟨[], by simp, by simp [fsEffects], rfl, by simp, by simp⟩
  · split
    · exact ⟨[], by simp, by simp [fsEffects], rfl, by simp, by simp⟩
    · split
      · exact ⟨[Effect.mkdir path false], rfl, by simp [fsEffects], rfl, by simp,
          fun _ _ => rfl⟩
      · exact ⟨[], by simp, by simp [fsEffects], rfl, by simp, by simp⟩
      · exact ⟨[], by simp, by simp [fsEffects], rfl, by simp, by simp⟩

theorem performs_mkdirSyncRecursive (path : String) :
    Performs (mkdirSyncRecursive path) [Effect.mkdir path true] := by
  intro w
  unfold ExpressCli.mkdirSyncRecursive
  split
  · exact ⟨[Effect.mkdir path true], rfl, by simp [fsEffects], rfl, by simp,
      fun _ _ => rfl⟩
  · exact ⟨[], by simp, by simp [fsEffects], rfl, by simp, by simp⟩

theorem performs_writeFileSync (path data : String) :
    Performs (writeFileSync path data) [Effect.writeFile path data] := by
  intro w
  unfold ExpressCli.writeFileSync
  dsimp only
  split
  · exact ⟨[], by simp, by simp [fsEffects], rfl, by simp, by simp⟩
  · split
    · exact ⟨[], by simp, by simp [fsEffects], rfl, by simp, by simp⟩
    · split
      · exact ⟨[], by simp, by simp [fsEffects], rfl, by simp, by simp⟩
      · split
        · exact ⟨[Effect.writeFile path data], rfl, by simp [fsEffects], rfl, by simp,
            fun _ _ => rfl⟩
        · exact ⟨[], by simp, by simp [fsEffects], rfl, by simp, by simp⟩
        · exact ⟨[], by simp, by simp [fsEffects], rfl, by simp, by simp⟩

theorem performs_ifThen {cond : Prop} [Decidable cond] {m : Proc Unit} {p : List Effect}
    (hm : Performs m p) : Performs (ifThen cond m) (if cond then p else []) := by
  unfold ExpressCli.ifThen
  by_cases h : cond
  · simpa [h] using hm
  · simpa [h] using performs_pure ()

theorem Proc.pure_bind {α β : Type} (a : α) (f : α → Proc β) :
    Proc.bind (Proc.pure a) f = f a := rfl

theorem performs_of_eq {α : Type} {m : Proc α} {p q : List Effect}
    (hm : Performs m p) (hpq : p = q) : Performs m q := hpq ▸ hm

theorem writeProject_performs (cwd : String) (answers : Answers) :
    Performs (writeProject cwd answers)
      ((plannedEffects cwd answers).drop (if answers.projectName ≠ "." then 1 else 0)) := by
  unfold writeProject
  simp only [bind, pure, forEach, folders, Proc.bind_assoc, Proc.pure_bind]
  refine performs_of_eq
    (performs_bind (performs_consoleLog _) fun _ =>
      performs_bind (performs_writeFileSync _ _) fun _ =>
      performs_bind (performs_mkdirSyncRecursive _) fun _ =>
      performs_bind (performs_mkdirSyncRecursive _) fun _ =>
      performs_bind (performs_mkdirSyncRecursive _) fun _ =>
      performs_bind (performs_writeFileSync _ _) fun _ =>
      performs_bind (performs_writeFileSync _ _) fun _ =>
      performs_bind (performs_writeFileSync _ _) fun _ =>
      performs_bind (performs_writeFileSync _ _) fun _ =>
      performs_bind (performs_writeFileSync _ _) fun _ =>
      performs_bind (performs_ifThen (performs_writeFileSync _ _)) fun _ =>
      performs_bind (performs_writeFileSync _ _) fun _ =>
      performs_writeFileSync _ _) ?_
  by_cases hn : answers.projectName = "." <;> simp [plannedEffects, extOf, hn]

theorem scaffold_performs (cwd : String) (answers : Answers) :
    Performs (scaffold cwd answers) (plannedEffects cwd answers) := by
  unfold scaffold
  refine performs_of_eq
    (performs_bind (performs_ifThen (performs_mkdirSync _)) fun _ =>
      writeProject_performs cwd answers) ?_
  by_cases hn : answers.projectName = "." <;> simp [plannedEffects, hn]

/-! ## Lemmas: the phases -/

theorem createExpressApp_eq (npm : Installer) (cwd : String) (answers : Answers) :
    createExpressApp npm cwd answers =
      Proc.bind (checkTarget cwd answers) (fun _ =>
        Proc.bind (scaffold cwd answers) (fun _ => installDependencies npm cwd answers)) := by
  rw [createExpressApp_phases, scaffold, Proc.bind_assoc]

theorem checkTarget_collision (cwd : String) (answers : Answers) (w : World)
    (h : collides cwd answers w.fs = true) :
    ∃ t1 t2, checkTarget cwd answers w =
      (Outcome.exit 1, { fs := w.fs, trace := w.trace ++ [Effect.log t1, Effect.log t2] }) := by
  simp only [collides, Bool.and_eq_true, decide_eq_true_eq] at h
  apply Exists.intro
  apply Exists.intro
  simp only [checkTarget, bind, pure, Proc.bind, ExpressCli.consoleLog, existsSync, ifThen,
    processExit, h.1, h.2, if_true, ne_eq, not_false_eq_true, List.append_assoc,
    List.singleton_append]
  rfl

theorem checkTarget_pass (cwd : String) (answers : Answers) (w : World)
    (h : collides cwd answers w.fs = false) :
    ∃ t1, checkTarget cwd answers w =
      (Outcome.ok (), { fs := w.fs, trace := w.trace ++ [Effect.log t1] }) := by
  apply Exists.intro
  by_cases hn : answers.projectName = "."
  · simp only [checkTarget, bind, pure, Proc.bind, ExpressCli.consoleLog, ifThen, hn,
      Proc.pure, ne_eq, not_true_eq_false, if_false, Bool.false_eq_true]
    rfl
  · have hp : pathExists w.fs (projectDirOf cwd answers.projectName) = false := by
      simpa [collides, hn] using h
    simp only [checkTarget, bind, pure, Proc.bind, ExpressCli.consoleLog, existsSync, ifThen,
      hn, hp, Proc.pure, ne_eq, not_false_eq_true, if_true, if_false, Bool.false_eq_true]

/-- What `installDependencies` does from a world `w`: it appends no filesystem effect, never
exits, runs `npm install` once and the extra install exactly when the first one succeeded and
the trimmed extra-packages answer is not empty. -/
theorem installDependencies_spec (npm : Installer) (cwd : String) (answers : Answers)
    (w : World) :
    ∃ es : List Effect,
      (installDependencies npm cwd answers w).2.trace = w.trace ++ es ∧
      fsEffects es = [] ∧
      (∀ code, (installDependencies npm cwd answers w).1 ≠ Outcome.exit code) ∧
      execsOf es =
        ("npm install", projectDirOf cwd answers.projectName,
            (npm "npm install" (projectDirOf cwd answers.projectName) w.fs).1) ::
          (if (npm "npm install" (projectDirOf cwd answers.projectName) w.fs).1 = 0 ∧
              trim answers.extraPackages ≠ "" then
            [("npm install " ++ answers.extraPackages, projectDirOf cwd answers.projectName,
              (npm ("npm install " ++ answers.extraPackages)
                (projectDirOf cwd answers.projectName)
                (npm "npm install" (projectDirOf cwd answers.projectName) w.fs).2).1)]
          else []) ∧
      (installDependencies npm cwd answers w).2.fs =
        (if (npm "npm install" (projectDirOf cwd answers.projectName) w.fs).1 = 0 ∧
            trim answers.extraPackages ≠ "" then
          (npm ("npm install " ++ answers.extraPackages)
            (projectDirOf cwd answers.projectName)
            (npm "npm install" (projectDirOf cwd answers.projectName) w.fs).2).2
        else (npm "npm install" (projectDirOf cwd answers.projectName) w.fs).2) ∧
      ((installDependencies npm cwd answers w).1 = Outcome.ok () ↔
        ((npm "npm install" (projectDirOf cwd answers.projectName) w.fs).1 = 0 ∧
          (trim answers.extraPackages ≠ "" →
            (npm ("npm install " ++ answers.extraPackages)
              (projectDirOf cwd answers.projectName)
              (npm "npm install" (projectDirOf cwd answers.projectName) w.fs).2).1 = 0))) := by
  by_cases h1 : (npm "npm install" (projectDirOf cwd answers.projectName) w.fs).1 = 0
  · by_cases h2 : trim answers.extraPackages = ""
    · apply Exists.intro
      refine ⟨?_, ?_, ?_, ?_, ?_, ?_⟩
      · simp only [installDependencies, bind, pure, Proc.bind, ExpressCli.consoleLog, execSync,
          ifThen, h1, h2, if_true, ne_eq, not_true_eq_false, if_false, Proc.pure,
          List.append_assoc]
        rfl
      · simp [fsEffects]
      · simp [installDependencies, bind, pure, Proc.bind, ExpressCli.consoleLog, execSync,
          ifThen, h1, h2, Proc.pure]
      · simp [execsOf, h1, h2]
      · simp [installDependencies, bind, pure, Proc.bind, ExpressCli.consoleLog, execSync,
          ifThen, h1, h2, Proc.pure]
      · simp [installDependencies, bind, pure, Proc.bind, ExpressCli.consoleLog, execSync,
          ifThen, h1, h2, Proc.pure]
    · by_cases h3 : (npm ("npm install " ++ answers.extraPackages)
          (projectDirOf cwd answers.projectName)
          (npm "npm install" (projectDirOf cwd answers.projectName) w.fs).2).1 = 0
      · apply Exists.intro
        refine ⟨?_, ?_, ?_, ?_, ?_, ?_⟩
        · simp only [installDependencies, bind, pure, Proc.bind, ExpressCli.consoleLog,
            execSync, ifThen, h1, h2, h3, if_true, ne_eq, not_false_eq_true, Proc.pure,
            List.append_assoc]
          rfl
        · simp [fsEffects]
        · simp [installDependencies, bind, pure, Proc.bind, ExpressCli.consoleLog, execSync,
            ifThen, h1, h2, h3, Proc.pure]
        · simp [execsOf, h1, h2, h3]
        · simp [installDependencies, bind, pure, Proc.bind, ExpressCli.consoleLog, execSync,
            ifThen, h1, h2, h3, Proc.pure]
        · simp [installDependencies, bind, pure, Proc.bind, ExpressCli.consoleLog, execSync,
            ifThen, h1, h2, h3, Proc.pure]
      · apply Exists.intro
        refine ⟨?_, ?_, ?_, ?_, ?_, ?_⟩
        · simp only [installDependencies, bind, pure, Proc.bind, ExpressCli.consoleLog,
            execSync, ifThen, h1, h2, h3, if_true, if_false, ne_eq, not_false_eq_true,
            Proc.pure, List.append_assoc]
          rfl
        · simp [fsEffects]
        · simp [installDependencies, bind, pure, Proc.bind, ExpressCli.consoleLog, execSync,
            ifThen, h1, h2, h3, Proc.pure]
        · simp [execsOf, h1, h2]
        · simp [installDependencies, bind, pure, Proc.bind, ExpressCli.consoleLog, execSync,
            ifThen, h1, h2, h3, Proc.pure]
        · simp [installDependencies, bind, pure, Proc.bind, ExpressCli.consoleLog, execSync,
            ifThen, h1, h2, h3, Proc.pure]
  · apply Exists.intro
    refine ⟨?_, ?_, ?_, ?_, ?_, ?_⟩
    · simp only [installDependencies, bind, pure, Proc.bind, ExpressCli.consoleLog, execSync,
        ifThen, h1, if_false, Proc.pure, List.append_assoc]
      rfl
    · simp [fsEffects]
    · simp [installDependencies, bind, pure, Proc.bind, ExpressCli.consoleLog, execSync,
        ifThen, h1, Proc.pure]
    · simp [execsOf, h1]
    · simp [installDependencies, bind, pure, Proc.bind, ExpressCli.consoleLog, execSync,
        ifThen, h1, Proc.pure]
    · simp [installDependencies, bind, pure, Proc.bind, ExpressCli.consoleLog, execSync,
        ifThen, h1, Proc.pure]

/-- The three ways a run can go: stopped by the collision check, stopped by an exception
while scaffolding, or scaffolded completely and handed to the installs. -/
theorem run_cases (npm : Installer) (cwd : String) (answers : Answers) (fs : FS) :
    (collides cwd answers fs = true ∧
      ∃ t1 t2, run npm cwd answers fs =
        (Outcome.exit 1, { fs := fs, trace := [Effect.log t1, Effect.log t2] })) ∨
    (collides cwd answers fs = false ∧
      ∃ t1 e w1, scaffold cwd answers { fs := fs, trace := [Effect.log t1] } =
          (Outcome.throw e, w1) ∧
        run npm cwd answers fs = (Outcome.throw e, w1)) ∨
    (collides cwd answers fs = false ∧
      ∃ t1 w1, scaffold cwd answers { fs := fs, trace := [Effect.log t1] } =
          (Outcome.ok (), w1) ∧
        run npm cwd answers fs = installDependencies npm cwd answers w1) := by
  unfold run
  rw [createExpressApp_eq]
  cases hc : collides cwd answers fs with
  | true =>
    left
    obtain ⟨t1, t2, h⟩ := checkTarget_collision cwd answers { fs := fs, trace := [] } hc
    exact ⟨rfl, t1, t2, by simp only [Proc.bind, h]; rfl⟩
  | false =>
    right
    obtain ⟨t1, h⟩ := checkTarget_pass cwd answers { fs := fs, trace := [] } hc
    simp only [List.nil_append] at h
    rcases hs : scaffold cwd answers { fs := fs, trace := [Effect.log t1] } with ⟨o, w1⟩
    cases o with
    | ok u =>
      right
      exact ⟨rfl, t1, w1, hs, by simp only [Proc.bind, h, hs]⟩
    | exit code =>
      obtain ⟨_, _, _, _, hne, _⟩ := scaffold_performs cwd answers
        { fs := fs, trace := [Effect.log t1] }
      rw [hs] at hne
      exact absurd rfl (hne code)
    | throw e =>
      left
      exact ⟨rfl, t1, e, w1, hs, by simp only [Proc.bind, h, hs]⟩

/-- The filesystem effects of any run are an initial segment of the plan. -/
theorem run_fsEffects (npm : Installer) (cwd : String) (answers : Answers) (fs : FS) :
    fsEffects (run npm cwd answers fs).2.trace <+: plannedEffects cwd answers := by
  rcases run_cases npm cwd answers fs with ⟨_, t1, t2, h⟩ | ⟨_, t1, e, w1, hs, h⟩ |
    ⟨_, t1, w1, hs, h⟩
  · rw [h]; simp [fsEffects]
  · obtain ⟨es, ht, hp, _, _, _⟩ := scaffold_performs cwd answers
      { fs := fs, trace := [Effect.log t1] }
    rw [hs] at ht
    simp only at ht
    rw [h]
    simp only [ht, fsEffects_append]
    simpa [fsEffects] using hp
  · obtain ⟨es, ht, _, _, _, hok⟩ := scaffold_performs cwd answers
      { fs := fs, trace := [Effect.log t1] }
    rw [hs] at ht hok
    simp only at ht
    obtain ⟨es2, ht2, hfs2, _⟩ := installDependencies_spec npm cwd answers w1
    rw [h, ht2, ht]
    simp only [fsEffects_append, hfs2, hok () rfl, List.append_nil]
    simp [fsEffects]

/-- The child processes of a run: none when the scaffolding did not complete; otherwise
`npm install` in the target directory, followed by the extra install exactly when the first one
exited with status 0 and the trimmed extra-packages answer is not empty.  In the second case
every planned filesystem effect has been performed before. -/
theorem run_execs (npm : Installer) (cwd : String) (answers : Answers) (fs : FS) :
    (execsOf (run npm cwd answers fs).2.trace = [] ∧
      ∀ u, (run npm cwd answers fs).1 ≠ Outcome.ok u) ∨
    (fsEffects (run npm cwd answers fs).2.trace = plannedEffects cwd answers ∧
      ∃ fs1 : FS,
        execsOf (run npm cwd answers fs).2.trace =
          ("npm install", projectDirOf cwd answers.projectName,
              (npm "npm install" (projectDirOf cwd answers.projectName) fs1).1) ::
            (if (npm "npm install" (projectDirOf cwd answers.projectName) fs1).1 = 0 ∧
                trim answers.extraPackages ≠ "" then
              [("npm install " ++ answers.extraPackages, projectDirOf cwd answers.projectName,
                (npm ("npm install " ++ answers.extraPackages)
                  (projectDirOf cwd answers.projectName)
                  (npm "npm install" (projectDirOf cwd answers.projectName) fs1).2).1)]
            else [])) := by
  rcases run_cases npm cwd answers fs with ⟨_, t1, t2, h⟩ | ⟨_, t1, e, w1, hs, h⟩ |
    ⟨_, t1, w1, hs, h⟩
  · left; rw [h]; simp [execsOf]
  · left
    obtain ⟨es, ht, _, hx, _, _⟩ := scaffold_performs cwd answers
      { fs := fs, trace := [Effect.log t1] }
    rw [hs] at ht
    simp only at ht
    rw [h]
    simp [ht, execsOf_append, hx, execsOf]
  · right
    obtain ⟨es, ht, _, hx, _, hok⟩ := scaffold_performs cwd answers
      { fs := fs, trace := [Effect.log t1] }
    rw [hs] at ht hok
    simp only at ht
    obtain ⟨es2, ht2, hfs2, _, hx2, _⟩ := installDependencies_spec npm cwd answers w1
    refine ⟨?_, w1.fs, ?_⟩
    · rw [h, ht2, ht]
      simp only [fsEffects_append, hfs2, hok () rfl, List.append_nil]
      simp [fsEffects]
    · rw [h, ht2, ht]
      simp only [execsOf_append, hx, hx2]
      simp [execsOf]

theorem collides_iff (cwd : String) (answers : Answers) (fs : FS) :
    collides cwd answers fs = true ↔
      (answers.projectName ≠ "." ∧ pathExists fs (join cwd answers.projectName) = true) := by
  unfold collides projectDirOf
  by_cases hn : answers.projectName = "."
  · simp [hn]
  · simp [hn]

theorem run_of_collides (npm : Installer) (cwd : String) (answers : Answers) (fs : FS)
    (hc : collides cwd answers fs = true) :
    ∃ t1 t2, run npm cwd answers fs =
      (Outcome.exit 1, { fs := fs, trace := [Effect.log t1, Effect.log t2] }) := by
  rcases run_cases npm cwd answers fs with ⟨_, h⟩ | ⟨hc2, _⟩ | ⟨hc2, _⟩
  · exact h
  · rw [hc] at hc2; cases hc2
  · rw [hc] at hc2; cases hc2

theorem run_no_exit_of_not_collides (npm : Installer) (cwd : String) (answers : Answers)
    (fs : FS) (hc : collides cwd answers fs = false) (code : Nat) :
    (run npm cwd answers fs).1 ≠ Outcome.exit code := by
  rcases run_cases npm cwd answers fs with ⟨hc2, _⟩ | ⟨_, t1, e, w1, hs, h⟩ |
    ⟨_, t1, w1, hs, h⟩
  · rw [hc] at hc2; cases hc2
  · rw [h]; simp
  · obtain ⟨_, _, _, hne, _⟩ := installDependencies_spec npm cwd answers w1
    rw [h]; exact hne code

/-! ## Lemmas: lists -/

theorem writesOf_isPrefix {xs ys : List Effect} (h : xs <+: ys) :
    writesOf xs <+: writesOf ys := by
  obtain ⟨t, rfl⟩ := h
  rw [writesOf_append]
  exact List.prefix_append _ _

theorem mkdirsOf_isPrefix {xs ys : List Effect} (h : xs <+: ys) :
    mkdirsOf xs <+: mkdirsOf ys := by
  obtain ⟨t, rfl⟩ := h
  rw [mkdirsOf_append]
  exact List.prefix_append _ _

theorem head?_of_isPrefix {α : Type} {xs ys : List α} {a : α} (h : xs <+: ys)
    (ha : xs.head? = some a) : ys.head? = some a := by
  obtain ⟨t, rfl⟩ := h
  cases xs with
  | nil => simp at ha
  | cons x rest => simpa using ha

/-- In a list that starts with `front`, an element that does not occur in `front` comes after
all of it. -/
theorem front_before {α : Type} {front back pre post : List α} {e : α}
    (h : pre ++ e :: post <+: front ++ back) (he : e ∉ front) : ∀ x ∈ front, x ∈ pre := by
  obtain ⟨t, ht⟩ := h
  rw [List.append_assoc] at ht
  rcases List.append_eq_append_iff.1 ht with ⟨a, ha, hb⟩ | ⟨c, hc, _⟩
  · cases a with
    | nil =>
      intro x hx
      simpa [ha] using hx
    | cons y rest =>
      simp only [List.cons_append, List.cons.injEq] at hb
      exact absurd (by rw [ha, hb.1]; simp) he
  · intro x hx
    rw [hc]
    exact List.mem_append_left _ hx

theorem split_at_index {α : Type} {xs : List α} {i : Nat} {e : α} (h : xs[i]? = some e) :
    xs = xs.take i ++ e :: xs.drop (i + 1) := by
  induction xs generalizing i with
  | nil => simp at h
  | cons x rest ih =>
    cases i with
    | zero => simp at h; simp [h]
    | succ n =>
      simp only [List.getElem?_cons_succ] at h
      simp only [List.take_succ_cons, List.drop_succ_cons, List.cons_append, List.cons.injEq,
        true_and]
      exact ih h

/-! ## The claims -/

/-- C1 (counterexample): with the name `a/b` in `/home/u`, where `/home/u/a` does not exist,
nothing is stored at `join(cwd, name)`, so there is no collision; `mkdirSync` throws `ENOENT`,
nothing catches it, and the process ends with exit code 1. -/
theorem exit_code_one_without_collision :
    pathExists exampleFs (join "/home/u" "a/b") = false ∧
    (run exampleNpm "/home/u" ⟨"a/b", "JavaScript", ""⟩ exampleFs).1 =
      Outcome.throw Err.ENOENT ∧
    exitCode (run exampleNpm "/home/u" ⟨"a/b", "JavaScript", ""⟩ exampleFs).1 = 1 := by
  decide!

/-- C1 (amended): a run terminates with exit code 1 if and only if either the project name is
not `"."` and `join(cwd, name)` already exists, or an exception of `fs` or of the installer
escapes the script.  The first case is exactly the one in which the run ends in the script's own
`process.exit(1)`, and in that case the filesystem after the run is the filesystem before it, no
directory has been created, no file written and the installer never invoked. -/
theorem exit_code_one_iff_collision_or_exception (npm : Installer) (cwd : String)
    (answers : Answers) (fs : FS) :
    (exitCode (run npm cwd answers fs).1 = 1 ↔
      ((answers.projectName ≠ "." ∧ pathExists fs (join cwd answers.projectName) = true) ∨
        ∃ e, (run npm cwd answers fs).1 = Outcome.throw e)) ∧
    ((run npm cwd answers fs).1 = Outcome.exit 1 ↔
      (answers.projectName ≠ "." ∧ pathExists fs (join cwd answers.projectName) = true)) ∧
    ((answers.projectName ≠ "." ∧ pathExists fs (join cwd answers.projectName) = true) →
      (run npm cwd answers fs).2.fs = fs ∧
      mkdirsOf (run npm cwd answers fs).2.trace = [] ∧
      writesOf (run npm cwd answers fs).2.trace = [] ∧
      execsOf (run npm cwd answers fs).2.trace = []) := by
  rw [← collides_iff]
  cases hc : collides cwd answers fs with
  | true =>
    obtain ⟨t1, t2, h⟩ := run_of_collides npm cwd answers fs hc
    rw [h]
    simp [exitCode, mkdirsOf, writesOf, execsOf]
  | false =>
    have hno := run_no_exit_of_not_collides npm cwd answers fs hc
    refine ⟨?_, ?_, ?_⟩
    · cases ho : (run npm cwd answers fs).1 with
      | ok a => simp [exitCode]
      | exit code => exact absurd ho (hno code)
      | throw e => simp [exitCode]
    · simp [hno 1]
    · intro h; cases h

theorem writesOf_plannedEffects_head (cwd : String) (answers : Answers) :
    (writesOf (plannedEffects cwd answers)).head? =
      some (join (projectDirOf cwd answers.projectName) "package.json",
        stringify2 (pkg (projectDirOf cwd answers.projectName) answers.language)) := by
  by_cases hn : answers.projectName = "." <;> simp [plannedEffects, writesOf, hn]

/-- C3: the first file any run writes is `package.json` in the target directory, and its
content is `JSON.stringify(pkg, null, 2)` where `pkg` has exactly the fields name, version,
main, license, scripts, dependencies, devDependencies, with name the final segment of the
target directory, version `1.0.0`, license `MIT`, dependencies `express ^4.19.2`; for
JavaScript main `index.js`, scripts start/dev and devDependencies nodemon only; for TypeScript
main `dist/index.js`, scripts dev/build/start and four devDependencies. -/
theorem manifest_written (npm : Installer) (cwd : String) (answers : Answers) (fs : FS)
    (path data : String)
    (h : (writesOf (run npm cwd answers fs).2.trace).head? = some (path, data)) :
    path = join (projectDirOf cwd answers.projectName) "package.json" ∧
    data = stringify2 (pkg (projectDirOf cwd answers.projectName) answers.language) ∧
    (pkg (projectDirOf cwd answers.projectName) answers.language).keys =
      ["name", "version", "main", "license", "scripts", "dependencies", "devDependencies"] ∧
    (pkg (projectDirOf cwd answers.projectName) answers.language).get "name" =
      some (Json.str (basename (projectDirOf cwd answers.projectName))) ∧
    (pkg (projectDirOf cwd answers.projectName) answers.language).get "version" =
      some (Json.str "1.0.0") ∧
    (pkg (projectDirOf cwd answers.projectName) answers.language).get "license" =
      some (Json.str "MIT") ∧
    (pkg (projectDirOf cwd answers.projectName) answers.language).get "dependencies" =
      some (Json.obj [("express", Json.str "^4.19.2")]) ∧
    (answers.language = "JavaScript" →
      (pkg (projectDirOf cwd answers.projectName) answers.language).get "main" =
        some (Json.str "index.js") ∧
      (pkg (projectDirOf cwd answers.projectName) answers.language).get "scripts" =
        some (Json.obj [("start", Json.str "node index.js"),
          ("dev", Json.str "nodemon index.js")]) ∧
      (pkg (projectDirOf cwd answers.projectName) answers.language).get "devDependencies" =
        some (Json.obj [("nodemon", Json.str "^3.1.0")])) ∧
    (answers.language = "TypeScript" →
      (pkg (projectDirOf cwd answers.projectName) answers.language).get "main" =
        some (Json.str "dist/index.js") ∧
      ((pkg (projectDirOf cwd answers.projectName) answers.language).get "scripts").map
        Json.keys = some ["dev", "build", "start"] ∧
      ((pkg (projectDirOf cwd answers.projectName) answers.language).get
        "devDependencies").map Json.keys =
        some ["typescript", "ts-node-dev", "@types/express", "@types/node"]) := by
  have hpre := writesOf_isPrefix (run_fsEffects npm cwd answers fs)
  rw [writesOf_fsEffects] at hpre
  have hhead := head?_of_isPrefix hpre h
  rw [writesOf_plannedEffects_head] at hhead
  simp only [Option.some.injEq, Prod.mk.injEq] at hhead
  refine ⟨hhead.1.symm, hhead.2.symm, ?_, ?_, ?_, ?_, ?_, ?_, ?_⟩
  · by_cases hl : answers.language = "JavaScript" <;>
      simp [pkg, pkgLiteral, Json.set, Json.setIn, Json.get, getField, setField, Json.keys, hl]
  · by_cases hl : answers.language = "JavaScript" <;>
      simp [pkg, pkgLiteral, Json.set, Json.setIn, Json.get, getField, setField, hl]
  · by_cases hl : answers.language = "JavaScript" <;>
      simp [pkg, pkgLiteral, Json.set, Json.setIn, Json.get, getField, setField, hl]
  · by_cases hl : answers.language = "JavaScript" <;>
      simp [pkg, pkgLiteral, Json.set, Json.setIn, Json.get, getField, setField, hl]
  · by_cases hl : answers.language = "JavaScript" <;>
      simp [pkg, pkgLiteral, Json.set, Json.setIn, Json.get, getField, setField, hl]
  · intro hl
    simp [pkg, pkgLiteral, Json.set, Json.setIn, Json.get, getField, setField, hl]
  · intro hl
    simp [pkg, pkgLiteral, Json.set, Json.setIn, Json.get, getField, setField, Json.keys, hl]

/-- C3 at a concrete run: project `demo`, JavaScript, in `/home/u`. -/
theorem manifest_written_witness :
    (writesOf (run exampleNpm "/home/u" ⟨"demo", "JavaScript", ""⟩ exampleFs).2.trace).head? =
        some ("/home/u/demo/package.json", stringify2 (pkg "/home/u/demo" "JavaScript")) ∧
    (pkg "/home/u/demo" "JavaScript").get "name" = some (Json.str (basename "/home/u/demo")) ∧
    basename "/home/u/demo" = "demo" ∧
    stringify2 (pkg "/home/u/demo" "JavaScript") =
      "\x7b\n  \"name\": \"demo\",\n  \"version\": \"1.0.0\",\n  \"main\": \"index.js\",\n" ++
      "  \"license\": \"MIT\",\n  \"scripts\": \x7b\n    \"start\": \"node index.js\",\n" ++
      "    \"dev\": \"nodemon index.js\"\n  \x7d,\n  \"dependencies\": \x7b\n" ++
      "    \"express\": \"^4.19.2\"\n  \x7d,\n  \"devDependencies\": \x7b\n" ++
      "    \"nodemon\": \"^3.1.0\"\n  \x7d\n\x7d" :=
  ⟨by decide!,
   (manifest_written exampleNpm "/home/u" ⟨"demo", "JavaScript", ""⟩ exampleFs
      "/home/u/demo/package.json" (stringify2 (pkg "/home/u/demo" "JavaScript"))
      (by decide!)).2.2.2.1,
   by decide!,
   by decide!⟩

theorem npm_install_extra_ne (extra : String) : "npm install " ++ extra ≠ "npm install" := by
  intro h
  have hlen := congrArg String.length h
  rw [String.length_append] at hlen
  have h1 : "npm install ".length = 12 := by decide
  have h2 : "npm install".length = 11 := by decide
  omega

/-- C6 as stated fails: with the extra-packages answer `" "`, which is not empty, a run that
reaches the install step invokes the package manager once only. -/
theorem blank_extra_packages_single_install :
    (" " : String) ≠ "" ∧
    execsOf (run exampleNpm "/home/u" ⟨"demo", "JavaScript", " "⟩ exampleFs).2.trace =
      [("npm install", "/home/u/demo", 0)] := by
  decide!

/-- C6 (amended): on every run that reaches the install step the first child process is
`npm install` in the target directory; there is at most one more, it is
`npm install ` followed by the extra-packages answer, also in the target directory, and it is
run exactly when the first one exited with status 0 and the extra-packages answer is not
empty after trimming; no other invocation is the bare `npm install`. -/
theorem install_invocations (npm : Installer) (cwd : String) (answers : Answers) (fs : FS)
    (h : execsOf (run npm cwd answers fs).2.trace ≠ []) :
    ∃ status rest,
      execsOf (run npm cwd answers fs).2.trace =
        ("npm install", projectDirOf cwd answers.projectName, status) :: rest ∧
      (rest = [] ∨ ∃ status2, rest =
        [("npm install " ++ answers.extraPackages, projectDirOf cwd answers.projectName,
          status2)]) ∧
      (rest ≠ [] ↔ (status = 0 ∧ trim answers.extraPackages ≠ "")) ∧
      (∀ e ∈ rest, e.1 ≠ "npm install") := by
  rcases run_execs npm cwd answers fs with ⟨h0, _⟩ | ⟨_, fs1, hx⟩
  · exact absurd h0 h
  · refine ⟨_, _, hx, ?_, ?_, ?_⟩
    · split
      · exact Or.inr ⟨_, rfl⟩
      · exact Or.inl rfl
    · split
      · rename_i hc; simpa using hc
      · rename_i hc; simpa using hc
    · intro e he
      split at he
      · simp only [List.mem_singleton] at he
        rw [he]
        exact npm_install_extra_ne _
      · simp at he

/-- C6 (amended) at a concrete run: TypeScript project `api` with extra packages. -/
theorem install_invocations_witness :
    execsOf (run exampleNpm "/home/u" ⟨"api", "TypeScript", "dotenv cors"⟩ exampleFs).2.trace =
      [("npm install", "/home/u/api", 0), ("npm install dotenv cors", "/home/u/api", 0)] ∧
    ∃ status rest,
      execsOf (run exampleNpm "/home/u" ⟨"api", "TypeScript", "dotenv cors"⟩
          exampleFs).2.trace =
        ("npm install", projectDirOf "/home/u" "api", status) :: rest ∧
      (rest = [] ∨ ∃ status2, rest =
        [("npm install " ++ "dotenv cors", projectDirOf "/home/u" "api", status2)]) ∧
      (rest ≠ [] ↔ (status = 0 ∧ trim "dotenv cors" ≠ "")) ∧
      (∀ e ∈ rest, e.1 ≠ "npm install") :=
  ⟨by decide!,
   install_invocations exampleNpm "/home/u" ⟨"api", "TypeScript", "dotenv cors"⟩ exampleFs
     (by decide!)⟩

/-- When the first `npm install` fails, the extra install is not run, whatever the
extra-packages answer, and the run ends with the failure of the child process. -/
theorem failed_install_stops_run :
    execsOf (run failingNpm "/home/u" ⟨"demo", "JavaScript", "dotenv"⟩ exampleFs).2.trace =
      [("npm install", "/home/u/demo", 1)] ∧
    (run failingNpm "/home/u" ⟨"demo", "JavaScript", "dotenv"⟩ exampleFs).1 =
      Outcome.throw (Err.childFailed 1) := by
  decide!

theorem plannedEffects_split (cwd : String) (answers : Answers) :
    ∃ back, plannedEffects cwd answers =
      ((if answers.projectName ≠ "." then
          [Effect.mkdir (projectDirOf cwd answers.projectName) false] else []) ++
        [Effect.writeFile (join (projectDirOf cwd answers.projectName) "package.json")
          (stringify2 (pkg (projectDirOf cwd answers.projectName) answers.language))]) ++
      ([Effect.mkdir (join (projectDirOf cwd answers.projectName) "src/routes") true,
        Effect.mkdir (join (projectDirOf cwd answers.projectName) "src/controllers") true,
        Effect.mkdir (join (projectDirOf cwd answers.projectName) "src/middlewares") true] ++
        back) := by
  refine ⟨(plannedEffects cwd answers).drop
    ((if answers.projectName ≠ "." then 1 else 0) + 4), ?_⟩
  by_cases hn : answers.projectName = "." <;> simp [plannedEffects, hn]

/-- C8 as stated fails: in the run for project `demo` the manifest `package.json` is written
as the second filesystem effect, while `src/routes` is created only as the third. -/
theorem package_json_precedes_folders :
    (fsEffects (run exampleNpm "/home/u" ⟨"demo", "JavaScript", ""⟩ exampleFs).2.trace).take 3 =
      [Effect.mkdir "/home/u/demo" false,
       Effect.writeFile "/home/u/demo/package.json" (stringify2 (pkg "/home/u/demo" "JavaScript")),
       Effect.mkdir "/home/u/demo/src/routes" true] := by
  decide!

/-- C8 (amended): the manifest is written before the folders are created, and every other
file is written after all three: a write of a path other than the manifest's is preceded by the
manifest write and by the creation of `src/routes`, `src/controllers` and `src/middlewares`;
and every recursive directory creation is preceded by the manifest write. -/
theorem folders_before_other_files (npm : Installer) (cwd : String) (answers : Answers)
    (fs : FS) (i : Nat) (path data : String)
    (h : (fsEffects (run npm cwd answers fs).2.trace)[i]? = some (Effect.writeFile path data))
    (hne : path ≠ join (projectDirOf cwd answers.projectName) "package.json") :
    (∀ f ∈ folders, Effect.mkdir (join (projectDirOf cwd answers.projectName) f) true ∈
      (fsEffects (run npm cwd answers fs).2.trace).take i) ∧
    Effect.writeFile (join (projectDirOf cwd answers.projectName) "package.json")
        (stringify2 (pkg (projectDirOf cwd answers.projectName) answers.language)) ∈
      (fsEffects (run npm cwd answers fs).2.trace).take i ∧
    (∀ j p, (fsEffects (run npm cwd answers fs).2.trace)[j]? = some (Effect.mkdir p true) →
      Effect.writeFile (join (projectDirOf cwd answers.projectName) "package.json")
          (stringify2 (pkg (projectDirOf cwd answers.projectName) answers.language)) ∈
        (fsEffects (run npm cwd answers fs).2.trace).take j) := by
  have hpre := run_fsEffects npm cwd answers fs
  obtain ⟨back, hplan⟩ := plannedEffects_split cwd answers
  have hfront : ∀ x ∈ ((if answers.projectName ≠ "." then
          [Effect.mkdir (projectDirOf cwd answers.projectName) false] else []) ++
        [Effect.writeFile (join (projectDirOf cwd answers.projectName) "package.json")
          (stringify2 (pkg (projectDirOf cwd answers.projectName) answers.language))]) ++
        [Effect.mkdir (join (projectDirOf cwd answers.projectName) "src/routes") true,
        Effect.mkdir (join (projectDirOf cwd answers.projectName) "src/controllers") true,
        Effect.mkdir (join (projectDirOf cwd answers.projectName) "src/middlewares") true],
      x ∈ (fsEffects (run npm cwd answers fs).2.trace).take i := by
    have hsplit := split_at_index h
    rw [hplan, ← List.append_assoc] at hpre
    rw [hsplit] at hpre
    refine front_before hpre ?_
    split_ifs <;> simp [hne]
  refine ⟨?_, ?_, ?_⟩
  · intro f hf
    apply hfront
    simp only [folders, List.mem_cons, List.mem_singleton, List.not_mem_nil, or_false] at hf
    rcases hf with rfl | rfl | rfl <;> simp
  · apply hfront
    simp
  · intro j p hj
    have hsplit := split_at_index hj
    rw [hplan] at hpre
    rw [hsplit] at hpre
    refine front_before hpre ?_ _ (by simp)
    split_ifs <;> simp

/-- C8 (amended) at a concrete run: `index.js` is the sixth filesystem effect. -/
theorem folders_before_other_files_witness :
    (fsEffects (run exampleNpm "/home/u" ⟨"demo", "JavaScript", ""⟩ exampleFs).2.trace)[5]? =
      some (Effect.writeFile "/home/u/demo/index.js" (trimStart rootIndexFileJavaScript)) ∧
    ∀ f ∈ folders, Effect.mkdir (join (projectDirOf "/home/u" "demo") f) true ∈
      (fsEffects (run exampleNpm "/home/u" ⟨"demo", "JavaScript", ""⟩
        exampleFs).2.trace).take 5 :=
  ⟨by decide!,
   (folders_before_other_files exampleNpm "/home/u" ⟨"demo", "JavaScript", ""⟩ exampleFs 5
      "/home/u/demo/index.js" (trimStart rootIndexFileJavaScript) (by decide!)
      (by decide!)).1⟩

/-! ## Lemmas: directories are kept -/

theorem keepsDir_pure {α : Type} (key : List String) (a : α) : KeepsDir key (Proc.pure a) :=
  fun _ h => h

theorem keepsDir_bind {α β : Type} {key : List String} {m : Proc α} {f : α → Proc β}
    (hm : KeepsDir key m) (hf : ∀ a, KeepsDir key (f a)) : KeepsDir key (Proc.bind m f) := by
  intro w hw
  have h1 := hm w hw
  simp only [Proc.bind]
  rcases hmw : m w with ⟨o, w1⟩
  rw [hmw] at h1
  cases o with
  | ok a => exact hf a w1 h1
  | exit code => exact h1
  | throw e => exact h1

theorem keepsDir_consoleLog (key : List String) (text : String) :
    KeepsDir key (consoleLog text) :=
  fun _ h => h

theorem keepsDir_ifThen {key : List String} {cond : Prop} [Decidable cond] {m : Proc Unit}
    (hm : KeepsDir key m) : KeepsDir key (ifThen cond m) := by
  unfold ExpressCli.ifThen
  by_cases h : cond
  · simpa [h] using hm
  · simpa [h] using keepsDir_pure key ()

theorem keepsDir_writeFileSync (key : List String) (path data : String) :
    KeepsDir key (writeFileSync path data) := by
  intro w hw
  unfold ExpressCli.writeFileSync
  dsimp only
  split
  · exact hw
  · split
    · exact hw
    · split
      · exact hw
      · split
        · rename_i hnd _ _ _
          simp only [FS.update]
          by_cases hk : key = fsKey path
          · rw [hk] at hw
            exact absurd hw (hnd)
          · simp [hk, hw]
        · exact hw
        · exact hw

theorem mkdirp_keeps (key : List String) (rev : List String) :
    ∀ (fs fs1 : FS), mkdirp fs rev = Except.ok fs1 → fs key = some Node.dir →
      fs1 key = some Node.dir := by
  induction rev with
  | nil =>
    intro fs fs1 h hk
    unfold mkdirp at h
    split at h
    · cases h; exact hk
    · cases h
    · cases h
  | cons s parent ih =>
    intro fs fs1 h hk
    unfold mkdirp at h
    split at h
    · cases h; exact hk
    · cases h
    · rename_i hnone
      split at h
      · cases h
      · split at h
        · rename_i fs2 h2
          cases h
          have h3 := ih fs fs2 h2 hk
          simp only [FS.update]
          by_cases hkk : key = (s :: parent).reverse
          · simp [hkk]
          · simp [hkk, h3]
        · cases h

theorem keepsDir_mkdirSyncRecursive (key : List String) (path : String) :
    KeepsDir key (mkdirSyncRecursive path) := by
  intro w hw
  unfold ExpressCli.mkdirSyncRecursive
  split
  · rename_i fs1 h1
    exact mkdirp_keeps key _ w.fs fs1 h1 hw
  · exact hw

theorem keepsDir_execSync {npm : Installer} {key : List String} {cwd : String}
    (hnpm : ∀ command fs0, fs0 key = some Node.dir → (npm command cwd fs0).2 key = some Node.dir)
    (command : String) : KeepsDir key (execSync npm command cwd) := by
  intro w hw
  unfold ExpressCli.execSync
  dsimp only
  split <;> exact hnpm command w.fs hw

theorem writeProject_keeps (key : List String) (cwd : String) (answers : Answers) :
    KeepsDir key (writeProject cwd answers) := by
  unfold writeProject
  simp only [bind, pure, forEach, folders, Proc.bind_assoc, Proc.pure_bind]
  exact
    keepsDir_bind (keepsDir_consoleLog _ _) fun _ =>
    keepsDir_bind (keepsDir_writeFileSync _ _ _) fun _ =>
    keepsDir_bind (keepsDir_mkdirSyncRecursive _ _) fun _ =>
    keepsDir_bind (keepsDir_mkdirSyncRecursive _ _) fun _ =>
    keepsDir_bind (keepsDir_mkdirSyncRecursive _ _) fun _ =>
    keepsDir_bind (keepsDir_writeFileSync _ _ _) fun _ =>
    keepsDir_bind (keepsDir_writeFileSync _ _ _) fun _ =>
    keepsDir_bind (keepsDir_writeFileSync _ _ _) fun _ =>
    keepsDir_bind (keepsDir_writeFileSync _ _ _) fun _ =>
    keepsDir_bind (keepsDir_writeFileSync _ _ _) fun _ =>
    keepsDir_bind (keepsDir_ifThen (keepsDir_writeFileSync _ _ _)) fun _ =>
    keepsDir_bind (keepsDir_writeFileSync _ _ _) fun _ =>
    keepsDir_writeFileSync _ _ _

theorem installDependencies_keeps {npm : Installer} {cwd : String} {answers : Answers}
    {key : List String}
    (hnpm : ∀ command fs0, fs0 key = some Node.dir →
      (npm command (projectDirOf cwd answers.projectName) fs0).2 key = some Node.dir) :
    KeepsDir key (installDependencies npm cwd answers) := by
  unfold installDependencies
  simp only [bind, pure]
  exact
    keepsDir_bind (keepsDir_consoleLog _ _) fun _ =>
    keepsDir_bind (keepsDir_execSync hnpm _) fun _ =>
    keepsDir_bind (keepsDir_ifThen
      (keepsDir_bind (keepsDir_consoleLog _ _) fun _ => keepsDir_execSync hnpm _)) fun _ =>
    keepsDir_bind (keepsDir_consoleLog _ _) fun _ =>
    keepsDir_consoleLog _ _

theorem bind_ok {α β : Type} {m : Proc α} {f : α → Proc β} {w w2 : World} {b : β}
    (h : Proc.bind m f w = (Outcome.ok b, w2)) :
    ∃ a w1, m w = (Outcome.ok a, w1) ∧ f a w1 = (Outcome.ok b, w2) := by
  simp only [Proc.bind] at h
  rcases hmw : m w with ⟨o, w1⟩
  rw [hmw] at h
  cases o with
  | ok a => exact ⟨a, w1, rfl, h⟩
  | exit code => simp at h
  | throw e => simp at h

theorem mkdirSync_ok {path : String} {w w1 : World} {u : Unit}
    (h : mkdirSync path w = (Outcome.ok u, w1)) : w1.fs (fsKey path) = some Node.dir := by
  unfold mkdirSync at h
  dsimp only at h
  split at h
  · simp at h
  · split at h
    · simp at h
    · split at h
      · simp only [Prod.mk.injEq, true_and] at h
        rw [← h]
        simp [FS.update]
      · simp at h
      · simp at h

theorem pathExists_of_dir {fs : FS} {path : String} (h : fs (fsKey path) = some Node.dir) :
    pathExists fs path = true := by
  simp [pathExists, h]

/-- After a successful run with a name other than `"."`, the target is a directory, provided
the package manager keeps the directories it finds. -/
theorem target_is_dir_after_run (npm : Installer) (cwd : String) (answers : Answers) (fs : FS)
    (hname : answers.projectName ≠ ".")
    (hnpm : ∀ command dir fs0, fs0 (fsKey dir) = some Node.dir →
      (npm command dir fs0).2 (fsKey dir) = some Node.dir)
    (hok : (run npm cwd answers fs).1 = Outcome.ok ()) :
    (run npm cwd answers fs).2.fs (fsKey (projectDirOf cwd answers.projectName)) =
      some Node.dir := by
  rcases run_cases npm cwd answers fs with ⟨_, t1, t2, h⟩ | ⟨_, t1, e, w1, hs, h⟩ |
    ⟨_, t1, w1, hs, h⟩
  · rw [h] at hok; simp at hok
  · rw [h] at hok; simp at hok
  · unfold scaffold at hs
    obtain ⟨u, w0, hmk, hwp⟩ := bind_ok hs
    have hmk2 : mkdirSync (projectDirOf cwd answers.projectName)
        { fs := fs, trace := [Effect.log t1] } = (Outcome.ok u, w0) := by
      simpa [makeTarget, ifThen, hname] using hmk
    have h0 := mkdirSync_ok hmk2
    have h1 : w1.fs (fsKey (projectDirOf cwd answers.projectName)) = some Node.dir := by
      have := writeProject_keeps (fsKey (projectDirOf cwd answers.projectName)) cwd answers
        w0 h0
      rw [hwp] at this
      exact this
    rw [h]
    exact installDependencies_keeps (fun command fs0 h0 => hnpm command _ fs0 h0) w1 h1

/-- C9: after a run with a name other than `"."` has succeeded, a second run with the same
name from the resulting filesystem ends with `process.exit(1)`, leaves that filesystem as it
is, and creates, writes and installs nothing, for a package manager that keeps the
directories it is run in. -/
theorem second_run_collides (npm npm2 : Installer) (cwd : String) (answers : Answers) (fs : FS)
    (hname : answers.projectName ≠ ".")
    (hnpm : ∀ command dir fs0, fs0 (fsKey dir) = some Node.dir →
      (npm command dir fs0).2 (fsKey dir) = some Node.dir)
    (hok : (run npm cwd answers fs).1 = Outcome.ok ()) :
    (run npm2 cwd answers (run npm cwd answers fs).2.fs).1 = Outcome.exit 1 ∧
    (run npm2 cwd answers (run npm cwd answers fs).2.fs).2.fs = (run npm cwd answers fs).2.fs ∧
    mkdirsOf (run npm2 cwd answers (run npm cwd answers fs).2.fs).2.trace = [] ∧
    writesOf (run npm2 cwd answers (run npm cwd answers fs).2.fs).2.trace = [] ∧
    execsOf (run npm2 cwd answers (run npm cwd answers fs).2.fs).2.trace = [] := by
  have hdir := target_is_dir_after_run npm cwd answers fs hname hnpm hok
  have hc : collides cwd answers (run npm cwd answers fs).2.fs = true := by
    simp [collides, hname, pathExists_of_dir hdir]
  obtain ⟨t1, t2, h⟩ := run_of_collides npm2 cwd answers _ hc
  rw [h]
  simp [mkdirsOf, writesOf, execsOf]

theorem exampleNpm_keeps (command dir : String) (fs0 : FS)
    (h : fs0 (fsKey dir) = some Node.dir) :
    (exampleNpm command dir fs0).2 (fsKey dir) = some Node.dir := by
  simp [exampleNpm, FS.update, h]

/-- C9 at a concrete pair of runs: project `demo` created twice in `/home/u`. -/
theorem second_run_collides_witness :
    (run exampleNpm "/home/u" ⟨"demo", "JavaScript", ""⟩ exampleFs).1 = Outcome.ok () ∧
    (run exampleNpm "/home/u" ⟨"demo", "JavaScript", ""⟩
      (run exampleNpm "/home/u" ⟨"demo", "JavaScript", ""⟩ exampleFs).2.fs).1 =
        Outcome.exit 1 :=
  ⟨by decide!,
   (second_run_collides exampleNpm exampleNpm "/home/u" ⟨"demo", "JavaScript", ""⟩ exampleFs
      (by decide) exampleNpm_keeps (by decide!)).1⟩

/-! ## Lemmas: paths -/

theorem splitOnChar_ne_nil (sep : Char) (cs : List Char) : splitOnChar sep cs ≠ [] := by
  cases cs with
  | nil => simp [splitOnChar]
  | cons c rest =>
    unfold splitOnChar
    split
    · simp
    · split <;> simp

theorem splitOnChar_cons_eq (sep : Char) (cs : List Char) :
    splitOnChar sep (sep :: cs) = [] :: splitOnChar sep cs := by
  simp [splitOnChar]

theorem splitOnChar_cons_ne (sep c : Char) (cs : List Char) (h : ¬ c = sep) :
    splitOnChar sep (c :: cs) =
      (c :: (splitOnChar sep cs).headD []) :: (splitOnChar sep cs).tail := by
  rcases hs : splitOnChar sep cs with _ | ⟨s, ss⟩
  · exact absurd hs (splitOnChar_ne_nil sep cs)
  · simp [splitOnChar, h, hs]

theorem splitOnChar_append (sep : Char) (a b : List Char) :
    splitOnChar sep (a ++ sep :: b) = splitOnChar sep a ++ splitOnChar sep b := by
  induction a with
  | nil => simp [splitOnChar]
  | cons c rest ih =>
    by_cases hc : c = sep
    · subst hc
      rw [List.cons_append, splitOnChar_cons_eq, splitOnChar_cons_eq, ih]
      rfl
    · rw [List.cons_append, splitOnChar_cons_ne _ _ _ hc, splitOnChar_cons_ne _ _ _ hc, ih]
      rcases hs : splitOnChar sep rest with _ | ⟨s, ss⟩
      · exact absurd hs (splitOnChar_ne_nil sep rest)
      · simp

theorem not_mem_of_mem_splitOnChar (sep : Char) (cs : List Char) :
    ∀ s ∈ splitOnChar sep cs, sep ∉ s := by
  induction cs with
  | nil => simp [splitOnChar]
  | cons c rest ih =>
    intro s hs
    unfold splitOnChar at hs
    split at hs
    · simp only [List.mem_cons] at hs
      rcases hs with rfl | hs
      · simp
      · exact ih s hs
    · rename_i hc
      rcases hr : splitOnChar sep rest with _ | ⟨t, ts⟩
      · exact absurd hr (splitOnChar_ne_nil sep rest)
      · rw [hr] at hs ih
        simp only [List.mem_cons] at hs
        rcases hs with rfl | hs
        · have := ih t (by simp)
          simp only [List.mem_cons, not_or]
          exact ⟨fun h => hc h.symm, this⟩
        · exact ih s (by simp [hs])

theorem splitOnChar_of_not_mem (sep : Char) (s : List Char) (h : sep ∉ s) :
    splitOnChar sep s = [s] := by
  induction s with
  | nil => simp [splitOnChar]
  | cons c rest ih =>
    simp only [List.mem_cons, not_or] at h
    have hc : ¬ c = sep := fun e => h.1 e.symm
    simp [splitOnChar, hc, ih h.2]

theorem joinSegments_splitOnChar (cs : List Char) :
    joinSegments (splitOnChar '/' cs) = cs := by
  induction cs with
  | nil => simp [splitOnChar, joinSegments]
  | cons c rest ih =>
    by_cases hc : c = '/'
    · rcases hr : splitOnChar '/' rest with _ | ⟨t, ts⟩
      · exact absurd hr (splitOnChar_ne_nil _ rest)
      · rw [hr] at ih
        simp [splitOnChar, hc, hr, joinSegments, ih]
    · rcases hr : splitOnChar '/' rest with _ | ⟨t, ts⟩
      · exact absurd hr (splitOnChar_ne_nil _ rest)
      · rw [hr] at ih
        simp only [splitOnChar, hc, if_false, hr]
        cases ts with
        | nil => simpa [joinSegments] using ih
        | cons t2 ts2 =>
          simp only [joinSegments] at ih ⊢
          simp [ih]

theorem splitOnChar_joinSegments (segs : List (List Char)) (hne : segs ≠ [])
    (h : ∀ s ∈ segs, '/' ∉ s) : splitOnChar '/' (joinSegments segs) = segs := by
  induction segs with
  | nil => exact absurd rfl hne
  | cons s rest ih =>
    cases rest with
    | nil => simpa [joinSegments] using splitOnChar_of_not_mem '/' s (h s (by simp))
    | cons t ts =>
      simp only [joinSegments]
      rw [splitOnChar_append, splitOnChar_of_not_mem '/' s (h s (by simp)),
        ih (by simp) (fun x hx => h x (by simp [hx]))]
      rfl

theorem isCleanSegment_iff (s : List Char) :
    isCleanSegment s = true ↔ s ≠ [] ∧ s ≠ ['.'] ∧ s ≠ ['.', '.'] ∧ '/' ∉ s := by
  simp [isCleanSegment, and_assoc]

theorem normalizeSegments_cons (b : Bool) (stack rest : List (List Char)) (seg : List Char) :
    normalizeSegments b stack (seg :: rest) =
      if seg = [] ∨ seg = ['.'] then normalizeSegments b stack rest
      else if seg = ['.', '.'] then
        match stack with
        | [] =>
          if b then normalizeSegments b [['.', '.']] rest
          else normalizeSegments b [] rest
        | top :: below =>
          if top = ['.', '.'] then
            if b then normalizeSegments b (seg :: top :: below) rest
            else normalizeSegments b (top :: below) rest
          else normalizeSegments b below rest
      else normalizeSegments b (seg :: stack) rest := by
  rfl

theorem normalizeSegments_step_clean (b : Bool) (stack rest : List (List Char))
    (seg : List Char) (h : isCleanSegment seg = true) :
    normalizeSegments b stack (seg :: rest) = normalizeSegments b (seg :: stack) rest := by
  obtain ⟨h1, h2, h3, _⟩ := (isCleanSegment_iff seg).1 h
  rw [normalizeSegments_cons]
  simp [h1, h2, h3]

theorem normalizeSegments_step_empty (b : Bool) (stack rest : List (List Char)) :
    normalizeSegments b stack ([] :: rest) = normalizeSegments b stack rest := by
  rw [normalizeSegments_cons]
  simp

theorem normalizeSegments_of_clean (b : Bool) (xs : List (List Char)) :
    ∀ stack, (∀ s ∈ xs, s = [] ∨ isCleanSegment s = true) →
      normalizeSegments b stack xs = stack.reverse ++ xs.filter (fun s => s ≠ []) := by
  induction xs with
  | nil => intro stack _; simp [normalizeSegments]
  | cons x rest ih =>
    intro stack h
    have hrest : ∀ s ∈ rest, s = [] ∨ isCleanSegment s = true :=
      fun s hs => h s (by simp [hs])
    rcases h x (by simp) with hx | hx
    · subst hx
      rw [normalizeSegments_step_empty, ih stack hrest]
      simp
    · have hne : x ≠ [] := ((isCleanSegment_iff x).1 hx).1
      rw [normalizeSegments_step_clean b stack rest x hx, ih (x :: stack) hrest]
      simp [hne]

theorem normalizeSegments_append (b : Bool) (xs ys : List (List Char)) :
    ∀ stack, normalizeSegments b stack (xs ++ ys) =
      normalizeSegments b (normalizeSegments b stack xs).reverse ys := by
  induction xs with
  | nil => intro stack; simp [normalizeSegments]
  | cons x rest ih =>
    intro stack
    rw [List.cons_append, normalizeSegments_cons, normalizeSegments_cons]
    split
    · exact ih _
    · split
      · split
        · split
          · exact ih _
          · exact ih _
        · split
          · split
            · exact ih _
            · exact ih _
          · exact ih _
      · exact ih _

theorem normalizeSegments_clean (xs : List (List Char)) :
    ∀ stack, (∀ s ∈ stack, isCleanSegment s = true) → (∀ s ∈ xs, '/' ∉ s) →
      ∀ s ∈ normalizeSegments false stack xs, isCleanSegment s = true := by
  induction xs with
  | nil => intro stack hst _ s hs; exact hst s (by simpa [normalizeSegments] using hs)
  | cons x rest ih =>
    intro stack hst hxs
    have hrest : ∀ s ∈ rest, '/' ∉ s := fun s hs => hxs s (by simp [hs])
    rw [normalizeSegments_cons]
    split
    · exact ih stack hst hrest
    · rename_i h1
      split
      · split
        · simpa using ih [] (by simp) hrest
        · rename_i top below
          split
          · simpa using ih (top :: below) hst hrest
          · exact ih below (fun s hs => hst s (by simp [hs])) hrest
      · rename_i h2
        refine ih (x :: stack) ?_ hrest
        intro s hs
        simp only [List.mem_cons] at hs
        rcases hs with rfl | hs
        · rw [isCleanSegment_iff]
          simp only [not_or] at h1
          exact ⟨h1.1, h1.2, h2, hxs _ (by simp)⟩
        · exact hst s hs

theorem absSegments_clean (dir : String) : ∀ s ∈ absSegments dir, isCleanSegment s = true :=
  normalizeSegments_clean _ [] (by simp) (not_mem_of_mem_splitOnChar '/' dir.data)

theorem joinSegments_ne_nil (segs : List (List Char)) (hne : segs ≠ [])
    (h : ∀ s ∈ segs, s ≠ []) : joinSegments segs ≠ [] := by
  cases segs with
  | nil => exact absurd rfl hne
  | cons s rest =>
    cases rest with
    | nil => simpa [joinSegments] using h s (by simp)
    | cons t ts => simp [joinSegments]

theorem joinSegments_append (xs ys : List (List Char)) (hx : xs ≠ []) (hy : ys ≠ []) :
    joinSegments (xs ++ ys) = joinSegments xs ++ '/' :: joinSegments ys := by
  induction xs with
  | nil => exact absurd rfl hx
  | cons x rest ih =>
    cases rest with
    | nil =>
      cases ys with
      | nil => exact absurd rfl hy
      | cons y ys => simp [joinSegments]
    | cons r rs =>
      have := ih (by simp)
      simp only [List.cons_append, joinSegments] at this ⊢
      simp [this]

theorem clean_ne_nil {segs : List (List Char)} (h : ∀ s ∈ segs, isCleanSegment s = true) :
    ∀ s ∈ segs, s ≠ [] :=
  fun s hs => ((isCleanSegment_iff s).1 (h s hs)).1

theorem clean_no_slash {segs : List (List Char)} (h : ∀ s ∈ segs, isCleanSegment s = true) :
    ∀ s ∈ segs, '/' ∉ s :=
  fun s hs => ((isCleanSegment_iff s).1 (h s hs)).2.2.2

theorem filter_clean {segs : List (List Char)} (h : ∀ s ∈ segs, isCleanSegment s = true) :
    segs.filter (fun s => s ≠ []) = segs := by
  rw [List.filter_eq_self]
  intro s hs
  simpa using clean_ne_nil h s hs

theorem getLast?_append_cons {α : Type} (xs : List α) (y : α) (ys : List α) :
    (xs ++ y :: ys).getLast? = (y :: ys).getLast? := by
  induction xs with
  | nil => rfl
  | cons x rest ih =>
    cases rest with
    | nil => simp [List.getLast?_cons_cons]
    | cons r rs =>
      simp only [List.cons_append, List.getLast?_cons_cons] at ih ⊢
      exact ih

theorem no_trailing_slash_of_clean (cs : List Char)
    (h : ∀ s ∈ splitOnChar '/' cs, isCleanSegment s = true) : cs.getLast? ≠ some '/' := by
  intro hl
  obtain ⟨init, rfl⟩ : ∃ init, cs = init ++ ['/'] := by
    rcases List.eq_nil_or_concat cs with rfl | ⟨init, x, rfl⟩
    · simp at hl
    · have hx : x = '/' := by simpa using hl
      exact ⟨init, by simp [hx]⟩
  rw [splitOnChar_append] at h
  have := h [] (by simp [splitOnChar])
  simp [isCleanSegment] at this

theorem ne_nil_of_clean (cs : List Char)
    (h : ∀ s ∈ splitOnChar '/' cs, isCleanSegment s = true) : cs ≠ [] := by
  rintro rfl
  have := h [] (by simp [splitOnChar])
  simp [isCleanSegment] at this

/-- `path.join(dir, rel)` for an absolute `dir` and a plain relative path `rel`: the
normalised segments of `dir` followed by those of `rel`. -/
theorem join_abs_data (dir rel : String) (hd : dir.data.head? = some '/')
    (hrel : ∀ s ∈ splitOnChar '/' rel.data, isCleanSegment s = true) :
    (join dir rel).data =
      '/' :: joinSegments (absSegments dir ++ splitOnChar '/' rel.data) := by
  have hdne : dir.data ≠ [] := by
    intro h; rw [h] at hd; simp at hd
  have hrne : rel.data ≠ [] := ne_nil_of_clean _ hrel
  have hlast : (dir.data ++ '/' :: rel.data).getLast? ≠ some '/' := by
    have h1 := no_trailing_slash_of_clean _ hrel
    rcases hr : rel.data with _ | ⟨c, cs⟩
    · exact absurd hr hrne
    · rw [hr] at h1
      rw [getLast?_append_cons, List.getLast?_cons_cons]
      exact h1
  have hhead : (dir.data ++ '/' :: rel.data).head? = some '/' := by
    rcases hdd : dir.data with _ | ⟨c, cs⟩
    · exact absurd hdd hdne
    · rw [hdd] at hd; simpa using hd
  have hbody : normalizeSegments false []
      (splitOnChar '/' (dir.data ++ '/' :: rel.data)) =
      absSegments dir ++ splitOnChar '/' rel.data := by
    rw [splitOnChar_append, normalizeSegments_append,
      normalizeSegments_of_clean false _ _ (fun s hs => Or.inr (hrel s hs)),
      filter_clean hrel]
    simp [absSegments]
  have hbne : joinSegments (absSegments dir ++ splitOnChar '/' rel.data) ≠ [] := by
    apply joinSegments_ne_nil
    · simp [splitOnChar_ne_nil]
    · intro s hs
      rcases List.mem_append.1 hs with h | h
      · exact clean_ne_nil (absSegments_clean dir) s h
      · exact clean_ne_nil hrel s h
  simp only [join, hdne, hrne, if_false, normalize, List.append_eq_nil, false_and, hhead,
    decide_True, Bool.not_true, hbody, hbne, hlast, decide_False, if_true,
    List.append_nil, List.singleton_append]

theorem join_abs_text (dir rel : String) (hd : dir.data.head? = some '/')
    (hrel : ∀ s ∈ splitOnChar '/' rel.data, isCleanSegment s = true) :
    (join dir rel).data = dirPrefix dir ++ rel.data := by
  rw [join_abs_data dir rel hd hrel, dirPrefix]
  by_cases hA : absSegments dir = []
  · simp [hA, joinSegments_splitOnChar]
  · rw [joinSegments_append _ _ hA (splitOnChar_ne_nil _ _), joinSegments_splitOnChar]
    simp [hA]

theorem fsKey_of_segments (segs : List (List Char)) (path : String)
    (hclean : ∀ s ∈ segs, isCleanSegment s = true)
    (hp : path.data = '/' :: joinSegments segs) : fsKey path = segs.map String.mk := by
  unfold fsKey
  rw [hp, splitOnChar_cons_eq]
  by_cases hne : segs = []
  · subst hne
    simp [joinSegments, splitOnChar]
  · rw [splitOnChar_joinSegments segs hne (clean_no_slash hclean)]
    have hf := filter_clean hclean
    simp only [ne_eq, decide_not] at hf
    simp [hf]

theorem fsKey_of_clean (rel : String)
    (hrel : ∀ s ∈ splitOnChar '/' rel.data, isCleanSegment s = true) :
    fsKey rel = (splitOnChar '/' rel.data).map String.mk := by
  unfold fsKey
  rw [filter_clean hrel]

theorem fsKey_join_abs (dir rel : String) (hd : dir.data.head? = some '/')
    (hrel : ∀ s ∈ splitOnChar '/' rel.data, isCleanSegment s = true) :
    fsKey (join dir rel) = (absSegments dir).map String.mk ++ fsKey rel := by
  rw [fsKey_of_segments _ _ ?_ (join_abs_data dir rel hd hrel), fsKey_of_clean rel hrel,
    List.map_append]
  intro s hs
  rcases List.mem_append.1 hs with h | h
  · exact absSegments_clean dir s h
  · exact hrel s h

theorem hasTrailingSlash_join_abs (dir rel : String) (hd : dir.data.head? = some '/')
    (hrel : ∀ s ∈ splitOnChar '/' rel.data, isCleanSegment s = true) :
    hasTrailingSlash (join dir rel) = false := by
  unfold hasTrailingSlash
  rw [join_abs_text dir rel hd hrel, dirPrefix]
  rcases hr : rel.data with _ | ⟨c, cs⟩
  · exact absurd hr (ne_nil_of_clean _ hrel)
  · have h1 := no_trailing_slash_of_clean _ hrel
    rw [hr] at h1
    rw [getLast?_append_cons]
    simpa using h1

/-- The normal form of an absolute path: `/`, the normalised segments, and possibly one
trailing separator. -/
theorem normalize_abs (path : String) (hp : path.data.head? = some '/') :
    ∃ tr, (tr = [] ∨ (tr = ['/'] ∧ absSegments path ≠ [])) ∧
      (normalize path).data = '/' :: joinSegments (absSegments path) ++ tr := by
  have hne : path.data ≠ [] := by
    intro h; rw [h] at hp; simp at hp
  by_cases hb : joinSegments (absSegments path) = []
  · refine ⟨[], Or.inl rfl, ?_⟩
    have hb2 : joinSegments (normalizeSegments false [] (splitOnChar '/' path.data)) = [] := hb
    simp [normalize, hne, hp, hb2, hb]
  · have hb2 : ¬ joinSegments (normalizeSegments false [] (splitOnChar '/' path.data)) = [] :=
      hb
    have hA : absSegments path ≠ [] := by
      intro h; rw [h] at hb; exact hb rfl
    by_cases ht : path.data.getLast? = some '/'
    · refine ⟨['/'], Or.inr ⟨rfl, hA⟩, ?_⟩
      simp [normalize, hne, hp, hb2, ht, absSegments]
    · refine ⟨[], Or.inl rfl, ?_⟩
      simp [normalize, hne, hp, hb2, ht, absSegments]

/-- An absolute path in normal form names the directory given by its normalised segments. -/
theorem fsKey_normalize_abs (path : String) (hp : path.data.head? = some '/') :
    (normalize path).data.head? = some '/' ∧
    fsKey (normalize path) = (absSegments (normalize path)).map String.mk := by
  obtain ⟨tr, htr, hdata⟩ := normalize_abs path hp
  have hclean := absSegments_clean path
  have hsplit : ∀ s ∈ splitOnChar '/' (normalize path).data,
      s = [] ∨ isCleanSegment s = true := by
    rw [hdata]
    intro s hs
    rw [List.cons_append, splitOnChar_cons_eq] at hs
    rcases List.mem_cons.1 hs with rfl | hs
    · exact Or.inl rfl
    · by_cases hA : absSegments path = []
      · have htr0 : tr = [] := by
          rcases htr with h | ⟨_, h⟩
          · exact h
          · exact absurd hA h
        rw [hA, htr0] at hs
        simp [joinSegments, splitOnChar] at hs
        exact Or.inl hs
      · rcases htr with h | ⟨h, _⟩
        · rw [h, List.append_nil, splitOnChar_joinSegments _ hA (clean_no_slash hclean)] at hs
          exact Or.inr (hclean s hs)
        · rw [h, splitOnChar_append,
            splitOnChar_joinSegments _ hA (clean_no_slash hclean)] at hs
          rcases List.mem_append.1 hs with hs | hs
          · exact Or.inr (hclean s hs)
          · simp [splitOnChar] at hs
            exact Or.inl hs
  refine ⟨by rw [hdata]; rfl, ?_⟩
  unfold fsKey absSegments
  rw [normalizeSegments_of_clean false _ [] hsplit]
  simp

theorem join_abs_head (cwd name : String) (hcwd : cwd.data.head? = some '/') :
    ∃ path : String, path.data.head? = some '/' ∧ join cwd name = normalize path := by
  have hne : cwd.data ≠ [] := by
    intro h; rw [h] at hcwd; simp at hcwd
  by_cases hn : name.data = []
  · exact ⟨cwd, hcwd, by simp [join, hne, hn]⟩
  · refine ⟨⟨cwd.data ++ '/' :: name.data⟩, ?_, by simp [join, hne, hn]⟩
    rcases hc : cwd.data with _ | ⟨c, cs⟩
    · exact absurd hc hne
    · rw [hc] at hcwd; simpa using hcwd

/-- The target `join(cwd, name)` of an absolute `cwd` is absolute and in normal form. -/
theorem target_abs (cwd name : String) (hcwd : cwd.data.head? = some '/') :
    (join cwd name).data.head? = some '/' ∧
    fsKey (join cwd name) = (absSegments (join cwd name)).map String.mk := by
  obtain ⟨path, hp, he⟩ := join_abs_head cwd name hcwd
  rw [he]
  exact fsKey_normalize_abs path hp

/-! ## Lemmas: scaffolding an empty directory succeeds -/

theorem succeeds_consoleLog (key : List String) (shape : FS) (text : String) :
    Succeeds key shape shape (consoleLog text) :=
  fun _ h => ⟨_, rfl, h⟩

theorem under_update {key : List String} {fs shape : FS} (h : Under key fs shape)
    (q : List String) (node : Node) :
    Under key (fs.update (key ++ q) node) (shape.update q node.shape) := by
  intro q2
  simp only [FS.update, List.append_cancel_left_eq]
  by_cases hq : q2 = q
  · simp [hq]
  · simpa [hq] using h q2

theorem succeeds_writeFileSync {key : List String} {shape : FS} (path data : String)
    (q : List String) (hkey : fsKey path = key ++ q) (hq : q ≠ [])
    (hslash : hasTrailingSlash path = false) (h1 : shape q ≠ some Node.dir)
    (h2 : shape q.dropLast = some Node.dir) :
    Succeeds key shape (shape.update q (Node.file "")) (writeFileSync path data) := by
  intro w hw
  have hk1 : w.fs (key ++ q) ≠ some Node.dir := by
    intro h
    have := hw q
    rw [h] at this
    exact h1 this.symm
  have hk2 : w.fs (key ++ q).dropLast = some Node.dir := by
    rw [List.dropLast_append_of_ne_nil _ hq]
    have := hw q.dropLast
    rw [h2] at this
    cases hv : w.fs (key ++ q.dropLast) with
    | none => rw [hv] at this; simp at this
    | some n =>
      rw [hv] at this
      cases n with
      | dir => rfl
      | file c => simp [Node.shape] at this
  have hne : key ++ q ≠ [] := by simp [hq]
  refine ⟨{ fs := w.fs.update (key ++ q) (Node.file data),
            trace := w.trace ++ [Effect.writeFile path data] }, ?_, under_update hw q _⟩
  unfold ExpressCli.writeFileSync
  simp only [hslash, hkey, hne, hk1, hk2, if_false, Bool.false_eq_true]

theorem mkdirp_of_dir (fs : FS) (rev : List String) (h : fs rev.reverse = some Node.dir) :
    mkdirp fs rev = Except.ok fs := by
  cases rev with
  | nil => simp only [List.reverse_nil] at h; simp [mkdirp, h]
  | cons s parent => unfold mkdirp; rw [h]

theorem shape_eq_dir {v : Option Node} (h : v.map Node.shape = some Node.dir) :
    v = some Node.dir := by
  cases v with
  | none => simp at h
  | some n => cases n <;> simp [Node.shape] at h ⊢

theorem shape_eq_none {v : Option Node} (h : v.map Node.shape = none) : v = none := by
  cases v with
  | none => rfl
  | some n => simp at h

theorem mkdirp_under (key : List String) (rev : List String) :
    ∀ (fs shape shape1 : FS), Under key fs shape → shape [] = some Node.dir →
      mkdirp shape rev = Except.ok shape1 →
      ∃ fs1, mkdirp fs (rev ++ key.reverse) = Except.ok fs1 ∧ Under key fs1 shape1 := by
  induction rev with
  | nil =>
    intro fs shape shape1 hu h0 hm
    have hs : shape1 = shape := by
      simp only [mkdirp, h0] at hm
      cases hm; rfl
    subst hs
    refine ⟨fs, ?_, hu⟩
    apply mkdirp_of_dir
    have := hu []
    rw [h0] at this
    simpa using shape_eq_dir this
  | cons s parent ih =>
    intro fs shape shape1 hu h0 hm
    have hkey1 : (s :: (parent ++ key.reverse)).reverse = key ++ (s :: parent).reverse := by
      simp
    have hkey2 : (parent ++ key.reverse).reverse = key ++ parent.reverse := by
      simp
    have hv1 := hu (s :: parent).reverse
    have hv2 := hu parent.reverse
    rw [List.cons_append]
    unfold mkdirp at hm ⊢
    rw [hkey1, hkey2]
    cases hs1 : shape (s :: parent).reverse with
    | some n =>
      rw [hs1] at hm hv1
      cases n with
      | dir =>
        simp only at hm
        cases hm
        rw [shape_eq_dir hv1]
        exact ⟨fs, rfl, hu⟩
      | file c => simp at hm
    | none =>
      rw [hs1] at hm hv1
      rw [shape_eq_none hv1]
      simp only at hm ⊢
      cases hs2 : shape parent.reverse with
      | some n =>
        rw [hs2] at hm hv2
        cases n with
        | file c => simp at hm
        | dir =>
          simp only at hm
          rw [shape_eq_dir hv2]
          simp only
          cases hr : mkdirp shape parent with
          | error e => rw [hr] at hm; simp at hm
          | ok shape2 =>
            rw [hr] at hm
            simp only [Except.ok.injEq] at hm
            obtain ⟨fs2, hfs2, hu2⟩ := ih fs shape shape2 hu h0 hr
            rw [hfs2]
            subst hm
            exact ⟨_, rfl, under_update hu2 _ Node.dir⟩
      | none =>
        rw [hs2] at hm hv2
        simp only at hm
        rw [shape_eq_none hv2]
        simp only
        cases hr : mkdirp shape parent with
        | error e => rw [hr] at hm; simp at hm
        | ok shape2 =>
          rw [hr] at hm
          simp only [Except.ok.injEq] at hm
          obtain ⟨fs2, hfs2, hu2⟩ := ih fs shape shape2 hu h0 hr
          rw [hfs2]
          subst hm
          exact ⟨_, rfl, under_update hu2 _ Node.dir⟩

theorem succeeds_mkdirSyncRecursive {key : List String} {shape : FS} (path : String)
    (q : List String) (hkey : fsKey path = key ++ q) (h0 : shape [] = some Node.dir)
    (hok : mkdirpOk shape q.reverse = true) :
    Succeeds key shape (mkdirpResult shape q.reverse) (mkdirSyncRecursive path) := by
  intro w hw
  cases hm : mkdirp shape q.reverse with
  | error e => simp [mkdirpOk, hm] at hok
  | ok shape1 =>
    obtain ⟨fs1, hfs1, hu1⟩ := mkdirp_under key q.reverse w.fs shape shape1 hw h0 hm
    refine ⟨{ fs := fs1, trace := w.trace ++ [Effect.mkdir path true] }, ?_, ?_⟩
    · unfold ExpressCli.mkdirSyncRecursive
      rw [hkey, List.reverse_append, hfs1]
    · simpa [mkdirpResult, hm] using hu1

theorem all_clean {rel : String}
    (h : (splitOnChar '/' rel.data).all isCleanSegment = true) :
    ∀ s ∈ splitOnChar '/' rel.data, isCleanSegment s = true := by
  simpa [List.all_eq_true] using h

theorem succeeds_writeBelow {dir : String} (hd : dir.data.head? = some '/')
    (hK : fsKey dir = (absSegments dir).map String.mk) {shape : FS} (rel data : String)
    (hrel : (splitOnChar '/' rel.data).all isCleanSegment = true)
    (h1 : shape (fsKey rel) ≠ some Node.dir)
    (h2 : shape (fsKey rel).dropLast = some Node.dir) :
    Succeeds (fsKey dir) shape (shape.update (fsKey rel) (Node.file ""))
      (ExpressCli.writeFileSync (join dir rel) data) := by
  have hc := all_clean hrel
  refine succeeds_writeFileSync _ _ _ ?_ ?_ (hasTrailingSlash_join_abs dir rel hd hc) h1 h2
  · rw [fsKey_join_abs dir rel hd hc, hK]
  · rw [fsKey_of_clean rel hc]
    simp [splitOnChar_ne_nil]

theorem succeeds_mkdirBelow {dir : String} (hd : dir.data.head? = some '/')
    (hK : fsKey dir = (absSegments dir).map String.mk) {shape : FS} (rel : String)
    (hrel : (splitOnChar '/' rel.data).all isCleanSegment = true)
    (h0 : shape [] = some Node.dir)
    (hok : mkdirpOk shape (fsKey rel).reverse = true) :
    Succeeds (fsKey dir) shape (mkdirpResult shape (fsKey rel).reverse)
      (ExpressCli.mkdirSyncRecursive (join dir rel)) := by
  have hc := all_clean hrel
  refine succeeds_mkdirSyncRecursive _ _ ?_ h0 hok
  rw [fsKey_join_abs dir rel hd hc, hK]

theorem runs_bind {key : List String} {r0 r1 : FS} {m : Proc Unit} {f : Unit → Proc Unit}
    (hm : Succeeds key r0 r1 m) (hf : ∀ u, Runs key r1 (f u)) :
    Runs key r0 (Proc.bind m f) := by
  intro w hw
  obtain ⟨w1, e1, h1⟩ := hm w hw
  obtain ⟨w2, e2⟩ := hf () w1 h1
  exact ⟨w2, by simp only [Proc.bind, e1]; exact e2⟩

theorem runs_of_succeeds {key : List String} {r0 r1 : FS} {m : Proc Unit}
    (hm : Succeeds key r0 r1 m) : Runs key r0 m := by
  intro w hw
  obtain ⟨w1, e1, _⟩ := hm w hw
  exact ⟨w1, e1⟩

theorem writeProject_succeeds (cwd : String) (answers : Answers)
    (hcwd : cwd.data.head? = some '/') (hname : answers.projectName ≠ ".") :
    Runs (fsKey (join cwd answers.projectName)) emptyDir (writeProject cwd answers) := by
  obtain ⟨hd, hK⟩ := target_abs cwd answers.projectName hcwd
  unfold writeProject
  simp only [bind, pure, forEach, folders, Proc.bind_assoc, Proc.pure_bind, projectDirOf,
    hname, if_false]
  by_cases hl : answers.language = "TypeScript"
  · simp only [hl, if_true, ifThen]
    refine runs_bind (succeeds_consoleLog _ _ _) fun _ => ?_
    refine runs_bind (succeeds_writeBelow hd hK "package.json" _
      (by decide) (by decide) (by decide)) fun _ => ?_
    refine runs_bind (succeeds_mkdirBelow hd hK "src/routes"
      (by decide) (by decide) (by decide)) fun _ => ?_
    refine runs_bind (succeeds_mkdirBelow hd hK "src/controllers"
      (by decide) (by decide) (by decide)) fun _ => ?_
    refine runs_bind (succeeds_mkdirBelow hd hK "src/middlewares"
      (by decide) (by decide) (by decide)) fun _ => ?_
    refine runs_bind (succeeds_writeBelow hd hK ("index." ++ "ts") _
      (by decide) (by decide) (by decide)) fun _ => ?_
    refine runs_bind (succeeds_writeBelow hd hK ("src/app." ++ "ts") _
      (by decide) (by decide) (by decide)) fun _ => ?_
    refine runs_bind (succeeds_writeBelow hd hK ("src/routes/index." ++ "ts") _
      (by decide) (by decide) (by decide)) fun _ => ?_
    refine runs_bind (succeeds_writeBelow hd hK ("src/controllers/home." ++ "ts") _
      (by decide) (by decide) (by decide)) fun _ => ?_
    refine runs_bind (succeeds_writeBelow hd hK ("src/middlewares/logger." ++ "ts") _
      (by decide) (by decide) (by decide)) fun _ => ?_
    refine runs_bind (succeeds_writeBelow hd hK "tsconfig.json" _
      (by decide) (by decide) (by decide)) fun _ => ?_
    refine runs_bind (succeeds_writeBelow hd hK ".gitignore" _
      (by decide) (by decide) (by decide)) fun _ => ?_
    exact runs_of_succeeds
      (succeeds_writeBelow hd hK "README.md" _ (by decide) (by decide) (by decide))
  · simp only [hl, if_false, ifThen, Proc.pure_bind]
    refine runs_bind (succeeds_consoleLog _ _ _) fun _ => ?_
    refine runs_bind (succeeds_writeBelow hd hK "package.json" _
      (by decide) (by decide) (by decide)) fun _ => ?_
    refine runs_bind (succeeds_mkdirBelow hd hK "src/routes"
      (by decide) (by decide) (by decide)) fun _ => ?_
    refine runs_bind (succeeds_mkdirBelow hd hK "src/controllers"
      (by decide) (by decide) (by decide)) fun _ => ?_
    refine runs_bind (succeeds_mkdirBelow hd hK "src/middlewares"
      (by decide) (by decide) (by decide)) fun _ => ?_
    refine runs_bind (succeeds_writeBelow hd hK ("index." ++ "js") _
      (by decide) (by decide) (by decide)) fun _ => ?_
    refine runs_bind (succeeds_writeBelow hd hK ("src/app." ++ "js") _
      (by decide) (by decide) (by decide)) fun _ => ?_
    refine runs_bind (succeeds_writeBelow hd hK ("src/routes/index." ++ "js") _
      (by decide) (by decide) (by decide)) fun _ => ?_
    refine runs_bind (succeeds_writeBelow hd hK ("src/controllers/home." ++ "js") _
      (by decide) (by decide) (by decide)) fun _ => ?_
    refine runs_bind (succeeds_writeBelow hd hK ("src/middlewares/logger." ++ "js") _
      (by decide) (by decide) (by decide)) fun _ => ?_
    refine runs_bind (succeeds_writeBelow hd hK ".gitignore" _
      (by decide) (by decide) (by decide)) fun _ => ?_
    exact runs_of_succeeds
      (succeeds_writeBelow hd hK "README.md" _ (by decide) (by decide) (by decide))

theorem nothing_below (fs : FS) (key : List String) (hwf : WellFormed fs)
    (hnone : fs key = none) : ∀ q, q ≠ [] → fs (key ++ q) = none := by
  intro q
  induction q using List.reverseRecOn with
  | nil => intro h; exact absurd rfl h
  | append_singleton init s ih =>
    intro _
    by_contra hne
    have hpar := hwf (key ++ init) s (by rwa [List.append_assoc])
    by_cases hi : init = []
    · subst hi
      rw [List.append_nil, hnone] at hpar
      cases hpar
    · rw [ih hi] at hpar
      cases hpar

theorem under_emptyDir (fs : FS) (key : List String)
    (hbelow : ∀ q, q ≠ [] → fs (key ++ q) = none) :
    Under key (fs.update key Node.dir) emptyDir := by
  intro q
  by_cases hq : q = []
  · subst hq
    simp [FS.update, emptyDir, Node.shape]
  · simp [FS.update, emptyDir, hq, hbelow q hq]

/-- On a tree-shaped filesystem where the target does not exist and its parent is a directory,
the whole scaffolding returns normally. -/
theorem scaffold_ok (cwd : String) (answers : Answers) (w : World)
    (hcwd : cwd.data.head? = some '/') (hname : answers.projectName ≠ ".")
    (hwf : WellFormed w.fs)
    (hnone : w.fs (fsKey (join cwd answers.projectName)) = none)
    (hparent : w.fs (fsKey (join cwd answers.projectName)).dropLast = some Node.dir) :
    ∃ w1, scaffold cwd answers w = (Outcome.ok (), w1) := by
  have hne : fsKey (join cwd answers.projectName) ≠ [] := by
    intro h
    rw [h] at hnone hparent
    simp only [List.dropLast_nil] at hparent
    rw [hnone] at hparent
    cases hparent
  have hmk : makeTarget cwd answers w =
      (Outcome.ok (),
        { fs := w.fs.update (fsKey (join cwd answers.projectName)) Node.dir,
          trace := w.trace ++ [Effect.mkdir (join cwd answers.projectName) false] }) := by
    simp only [makeTarget, ifThen, hname, ne_eq, not_false_eq_true, if_true, projectDirOf,
      if_false, mkdirSync, hnone, hne, hparent]
  obtain ⟨w1, h1⟩ := writeProject_succeeds cwd answers hcwd hname
    { fs := w.fs.update (fsKey (join cwd answers.projectName)) Node.dir,
      trace := w.trace ++ [Effect.mkdir (join cwd answers.projectName) false] }
    (under_emptyDir w.fs _ (nothing_below w.fs _ hwf hnone))
  exact ⟨w1, by simp only [scaffold, Proc.bind, hmk]; exact h1⟩

theorem not_collides_of_none (cwd : String) (answers : Answers) (fs : FS)
    (hname : answers.projectName ≠ ".")
    (hnone : fs (fsKey (join cwd answers.projectName)) = none) :
    collides cwd answers fs = false := by
  simp [collides, projectDirOf, hname, pathExists, hnone]

/-- On a fresh target every planned filesystem effect is performed, in order, and the run
reaches the install step. -/
theorem run_fresh (npm : Installer) (cwd : String) (answers : Answers) (fs : FS)
    (hcwd : cwd.data.head? = some '/') (hname : answers.projectName ≠ ".")
    (hwf : WellFormed fs)
    (hnone : fs (fsKey (join cwd answers.projectName)) = none)
    (hparent : fs (fsKey (join cwd answers.projectName)).dropLast = some Node.dir) :
    fsEffects (run npm cwd answers fs).2.trace = plannedEffects cwd answers ∧
    execsOf (run npm cwd answers fs).2.trace ≠ [] := by
  have hc := not_collides_of_none cwd answers fs hname hnone
  rcases run_cases npm cwd answers fs with ⟨hc2, _⟩ | ⟨_, t1, e, w1, hs, h⟩ |
    ⟨_, t1, w1, hs, h⟩
  · rw [hc] at hc2; cases hc2
  · obtain ⟨w2, h2⟩ := scaffold_ok cwd answers { fs := fs, trace := [Effect.log t1] }
      hcwd hname hwf hnone hparent
    rw [hs] at h2
    simp at h2
  · obtain ⟨es, ht, _, hx, _, hok⟩ := scaffold_performs cwd answers
      { fs := fs, trace := [Effect.log t1] }
    rw [hs] at ht hok
    simp only at ht
    obtain ⟨es2, ht2, hfs2, _, hx2, _⟩ := installDependencies_spec npm cwd answers w1
    constructor
    · rw [h, ht2, ht]
      simp only [fsEffects_append, hfs2, hok () rfl, List.append_nil]
      simp [fsEffects]
    · rw [h, ht2, ht]
      simp only [execsOf_append, hx, hx2]
      simp [execsOf]

theorem writesOf_plannedEffects (cwd : String) (answers : Answers) :
    writesOf (plannedEffects cwd answers) =
      ([("package.json",
          stringify2 (pkg (projectDirOf cwd answers.projectName) answers.language))] ++
        sourceFiles answers.language ++
        (if answers.language = "TypeScript" then [("tsconfig.json", stringify2 tsconfig)]
          else []) ++
        [(".gitignore", trimStart gitignore),
         ("README.md", trimStart (readme
            (pkgName (projectDirOf cwd answers.projectName) answers.language)
            answers.language (extOf answers.language) answers.projectName))]).map
        (fun f => (join (projectDirOf cwd answers.projectName) f.1, f.2)) := by
  by_cases hn : answers.projectName = "." <;>
    by_cases hl : answers.language = "TypeScript" <;>
      simp [plannedEffects, writesOf, sourceFiles, hn, hl]

theorem writesOf_plannedEffects_paths (cwd : String) (answers : Answers) :
    (writesOf (plannedEffects cwd answers)).map Prod.fst =
      (layout answers.language).map (join (projectDirOf cwd answers.projectName)) := by
  rw [writesOf_plannedEffects]
  by_cases hl : answers.language = "TypeScript" <;> simp [layout, sourceFiles, hl]

theorem layout_clean (language : String) :
    ∀ rel ∈ layout language, (splitOnChar '/' rel.data).all isCleanSegment = true := by
  by_cases hl : language = "TypeScript"
  · subst hl; decide
  · simp only [layout, extOf, hl, if_false]; decide

theorem layout_nodup (language : String) : (layout language).Nodup := by
  by_cases hl : language = "TypeScript"
  · subst hl; decide
  · simp only [layout, extOf, hl, if_false]; decide

theorem layout_length (language : String) :
    (layout language).length = if language = "TypeScript" then 9 else 8 := by
  by_cases hl : language = "TypeScript" <;> simp [layout, hl]

theorem join_abs_injective (dir : String) (hd : dir.data.head? = some '/') (r1 r2 : String)
    (h1 : (splitOnChar '/' r1.data).all isCleanSegment = true)
    (h2 : (splitOnChar '/' r2.data).all isCleanSegment = true)
    (h : join dir r1 = join dir r2) : r1 = r2 := by
  have e := congrArg String.data h
  rw [join_abs_text dir r1 hd (all_clean h1), join_abs_text dir r2 hd (all_clean h2)] at e
  exact String.ext (List.append_cancel_left e)

/-- C2: for a project name other than `"."` whose target directory does not exist (while its
parent directory does, on a tree-shaped filesystem, `cwd` being absolute), the files written
by `createExpressApp` are, in order, `package.json`, `index.EXT`, `src/app.EXT`,
`src/routes/index.EXT`, `src/controllers/home.EXT`, `src/middlewares/logger.EXT`,
`tsconfig.json` for TypeScript only, `.gitignore` and `README.md` under the target directory,
with `EXT` = `ts` for TypeScript and `js` otherwise; these paths are pairwise distinct, nine for
TypeScript and eight otherwise. -/
theorem files_written (npm : Installer) (cwd : String) (answers : Answers) (fs : FS)
    (hcwd : cwd.data.head? = some '/') (hname : answers.projectName ≠ ".")
    (hwf : WellFormed fs)
    (hnone : fs (fsKey (join cwd answers.projectName)) = none)
    (hparent : fs (fsKey (join cwd answers.projectName)).dropLast = some Node.dir) :
    (writesOf (run npm cwd answers fs).2.trace).map Prod.fst =
      (["package.json",
        "index." ++ extOf answers.language,
        "src/app." ++ extOf answers.language,
        "src/routes/index." ++ extOf answers.language,
        "src/controllers/home." ++ extOf answers.language,
        "src/middlewares/logger." ++ extOf answers.language] ++
       (if answers.language = "TypeScript" then ["tsconfig.json"] else []) ++
       [".gitignore", "README.md"]).map (join (join cwd answers.projectName)) ∧
    ((writesOf (run npm cwd answers fs).2.trace).map Prod.fst).Nodup ∧
    ((writesOf (run npm cwd answers fs).2.trace).map Prod.fst).length =
      (if answers.language = "TypeScript" then 9 else 8) := by
  have hrun := (run_fresh npm cwd answers fs hcwd hname hwf hnone hparent).1
  have hw : (writesOf (run npm cwd answers fs).2.trace).map Prod.fst =
      (layout answers.language).map (join (join cwd answers.projectName)) := by
    rw [← writesOf_fsEffects, hrun, writesOf_plannedEffects_paths]
    simp [projectDirOf, hname]
  obtain ⟨hd, _⟩ := target_abs cwd answers.projectName hcwd
  refine ⟨hw, ?_, ?_⟩
  · rw [hw]
    refine List.Nodup.map_on ?_ (layout_nodup _)
    intro x hx y hy hxy
    exact join_abs_injective _ hd x y (layout_clean _ x hx) (layout_clean _ y hy) hxy
  · rw [hw, List.length_map, layout_length]

theorem exampleFs_wellFormed : WellFormed exampleFs := by
  intro p s h
  match p with
  | [] => simp [exampleFs]
  | [a] =>
    simp only [exampleFs] at h ⊢
    split at h
    · rename_i hc
      simp at hc
      simp [hc.1]
    · exact absurd rfl h
  | a :: b :: rest =>
    simp only [exampleFs] at h
    split at h
    · rename_i hc
      simp at hc
    · exact absurd rfl h

/-- C2 at a concrete run: TypeScript project `api` in `/home/u`. -/
theorem files_written_witness :
    exampleFs (fsKey (join "/home/u" "api")) = none ∧
    (writesOf (run exampleNpm "/home/u" ⟨"api", "TypeScript", "dotenv cors"⟩
      exampleFs).2.trace).map Prod.fst =
      ["/home/u/api/package.json", "/home/u/api/index.ts", "/home/u/api/src/app.ts",
       "/home/u/api/src/routes/index.ts", "/home/u/api/src/controllers/home.ts",
       "/home/u/api/src/middlewares/logger.ts", "/home/u/api/tsconfig.json",
       "/home/u/api/.gitignore", "/home/u/api/README.md"] :=
  ⟨by decide,
   (files_written exampleNpm "/home/u" ⟨"api", "TypeScript", "dotenv cors"⟩ exampleFs
      (by decide) (by decide) exampleFs_wellFormed (by decide) (by decide)).1.trans
      (by decide)⟩

theorem installDependencies_outcome (npm : Installer) (cwd : String) (answers : Answers)
    (w : World) :
    (installDependencies npm cwd answers w).1 = Outcome.ok () ∨
    ∃ status, (installDependencies npm cwd answers w).1 = Outcome.throw (Err.childFailed status) := by
  by_cases h1 : (npm "npm install" (projectDirOf cwd answers.projectName) w.fs).1 = 0
  · by_cases h2 : trim answers.extraPackages = ""
    · left
      simp [installDependencies, bind, pure, Proc.bind, ExpressCli.consoleLog, execSync,
        ifThen, h1, h2, Proc.pure]
    · by_cases h3 : (npm ("npm install " ++ answers.extraPackages)
          (projectDirOf cwd answers.projectName)
          (npm "npm install" (projectDirOf cwd answers.projectName) w.fs).2).1 = 0
      · left
        simp [installDependencies, bind, pure, Proc.bind, ExpressCli.consoleLog, execSync,
          ifThen, h1, h2, h3, Proc.pure]
      · right
        exact ⟨(npm ("npm install " ++ answers.extraPackages)
          (projectDirOf cwd answers.projectName)
          (npm "npm install" (projectDirOf cwd answers.projectName) w.fs).2).1,
          by simp [installDependencies, bind, pure, Proc.bind, ExpressCli.consoleLog,
            execSync, ifThen, h1, h2, h3, Proc.pure]⟩
  · right
    exact ⟨(npm "npm install" (projectDirOf cwd answers.projectName) w.fs).1,
      by simp [installDependencies, bind, pure, Proc.bind, ExpressCli.consoleLog,
        execSync, ifThen, h1, Proc.pure]⟩

/-- On a fresh target the outcome of a run is that of the installs: normal completion, or the
failure of a child process. -/
theorem run_fresh_outcome (npm : Installer) (cwd : String) (answers : Answers) (fs : FS)
    (hcwd : cwd.data.head? = some '/') (hname : answers.projectName ≠ ".")
    (hwf : WellFormed fs)
    (hnone : fs (fsKey (join cwd answers.projectName)) = none)
    (hparent : fs (fsKey (join cwd answers.projectName)).dropLast = some Node.dir) :
    (run npm cwd answers fs).1 = Outcome.ok () ∨
    ∃ status, (run npm cwd answers fs).1 = Outcome.throw (Err.childFailed status) := by
  have hc := not_collides_of_none cwd answers fs hname hnone
  rcases run_cases npm cwd answers fs with ⟨hc2, _⟩ | ⟨_, t1, e, w1, hs, h⟩ |
    ⟨_, t1, w1, hs, h⟩
  · rw [hc] at hc2; cases hc2
  · obtain ⟨w2, h2⟩ := scaffold_ok cwd answers { fs := fs, trace := [Effect.log t1] }
      hcwd hname hwf hnone hparent
    rw [hs] at h2
    simp at h2
  · rw [h]
    exact installDependencies_outcome npm cwd answers w1

/-- C4 as stated fails: with the language `"Python"` the run completes normally and writes
the manifest and the template files. -/
theorem unknown_language_not_rejected :
    (run exampleNpm "/home/u" ⟨"demo", "Python", ""⟩ exampleFs).1 = Outcome.ok () ∧
    (writesOf (run exampleNpm "/home/u" ⟨"demo", "Python", ""⟩ exampleFs).2.trace).map
        Prod.fst =
      ["/home/u/demo/package.json", "/home/u/demo/index.js", "/home/u/demo/src/app.js",
       "/home/u/demo/src/routes/index.js", "/home/u/demo/src/controllers/home.js",
       "/home/u/demo/src/middlewares/logger.js", "/home/u/demo/.gitignore",
       "/home/u/demo/README.md"] := by
  decide!

/-- C4 (amended): `createExpressApp` does not validate the language.  For every language
string other than `"JavaScript"` and `"TypeScript"`, on a fresh target, the run raises no error
of its own (it completes, or fails only through a failing child process) and writes the
manifest and the five template files: `main` is `index.js`, the scripts and devDependencies
are those of the TypeScript branch, the files carry the extension `js` with the contents of
the non-JavaScript templates, and no `tsconfig.json` is written. -/
theorem unknown_language_falls_back (npm : Installer) (cwd : String) (answers : Answers)
    (fs : FS) (hcwd : cwd.data.head? = some '/') (hname : answers.projectName ≠ ".")
    (hwf : WellFormed fs)
    (hnone : fs (fsKey (join cwd answers.projectName)) = none)
    (hparent : fs (fsKey (join cwd answers.projectName)).dropLast = some Node.dir)
    (hjs : answers.language ≠ "JavaScript") (hts : answers.language ≠ "TypeScript") :
    ((run npm cwd answers fs).1 = Outcome.ok () ∨
      ∃ status, (run npm cwd answers fs).1 = Outcome.throw (Err.childFailed status)) ∧
    writesOf (run npm cwd answers fs).2.trace =
      [(join (join cwd answers.projectName) "package.json",
          stringify2 (pkg (join cwd answers.projectName) answers.language)),
       (join (join cwd answers.projectName) "index.js", trimStart rootIndexFileTypeScript),
       (join (join cwd answers.projectName) "src/app.js", trimStart appFileTypeScript),
       (join (join cwd answers.projectName) "src/routes/index.js",
          trimStart routeFileTypeScript),
       (join (join cwd answers.projectName) "src/controllers/home.js",
          trimStart controllerFileTypeScript),
       (join (join cwd answers.projectName) "src/middlewares/logger.js",
          trimStart middlewareFileTypeScript),
       (join (join cwd answers.projectName) ".gitignore", trimStart gitignore),
       (join (join cwd answers.projectName) "README.md",
          trimStart (readme (pkgName (join cwd answers.projectName) answers.language)
            answers.language "js" answers.projectName))] ∧
    (pkg (join cwd answers.projectName) answers.language).get "main" =
      some (Json.str "index.js") ∧
    (pkg (join cwd answers.projectName) answers.language).get "scripts" =
      (pkg (join cwd answers.projectName) "TypeScript").get "scripts" ∧
    (pkg (join cwd answers.projectName) answers.language).get "devDependencies" =
      (pkg (join cwd answers.projectName) "TypeScript").get "devDependencies" := by
  refine ⟨run_fresh_outcome npm cwd answers fs hcwd hname hwf hnone hparent, ?_, ?_, ?_, ?_⟩
  · rw [← writesOf_fsEffects,
      (run_fresh npm cwd answers fs hcwd hname hwf hnone hparent).1, writesOf_plannedEffects]
    simp [projectDirOf, hname, hjs, hts, sourceFiles, extOf, rootIndexFile, appFile,
      routeFile, controllerFile, middlewareFile]
  · simp [pkg, pkgLiteral, Json.set, Json.setIn, Json.get, getField, setField, hjs, hts]
  · simp [pkg, pkgLiteral, Json.set, Json.setIn, Json.get, getField, setField, hjs]
  · simp [pkg, pkgLiteral, Json.set, Json.setIn, Json.get, getField, setField, hjs]

/-- C4 (amended) at a concrete run: language `"Python"`. -/
theorem unknown_language_falls_back_witness :
    ("Python" : String) ≠ "JavaScript" ∧ ("Python" : String) ≠ "TypeScript" ∧
    (pkg (join "/home/u" "demo") "Python").get "main" = some (Json.str "index.js") :=
  ⟨by decide, by decide,
   (unknown_language_falls_back exampleNpm "/home/u" ⟨"demo", "Python", ""⟩ exampleFs
      (by decide) (by decide) exampleFs_wellFormed (by decide) (by decide)
      (by decide) (by decide)).2.2.1⟩

/-! ## Lemmas: the source files -/

theorem startsWith_append (a b p : List Char) (h : startsWith a p = true) :
    startsWith (a ++ b) p = true := by
  induction a generalizing p with
  | nil =>
    cases p with
    | nil => simp [startsWith]
    | cons c cs => simp [startsWith] at h
  | cons x rest ih =>
    cases p with
    | nil => simp [startsWith]
    | cons c cs =>
      simp only [startsWith, Bool.and_eq_true, decide_eq_true_eq] at h
      simp only [List.cons_append, startsWith, Bool.and_eq_true, decide_eq_true_eq]
      exact ⟨h.1, ih cs h.2⟩

theorem endsWith_append (front s suf : List Char) (h : endsWith s suf = true) :
    endsWith (front ++ s) suf = true := by
  unfold endsWith at h ⊢
  rw [List.reverse_append]
  exact startsWith_append _ _ _ h

theorem mem_slice_of_isPrefix {α : Type} {xs ys : List α} (h : xs <+: ys) (x : α)
    (hx : x ∈ (xs.drop 1).take 5) : x ∈ (ys.drop 1).take 5 := by
  obtain ⟨t, rfl⟩ := h
  cases xs with
  | nil => simp at hx
  | cons a rest =>
    simp only [List.drop_succ_cons, List.drop_zero, List.cons_append] at hx ⊢
    rw [List.take_append_eq_append_take]
    exact List.mem_append_left _ hx

theorem projectDirOf_abs (cwd name : String) (hcwd : cwd.data.head? = some '/') :
    (projectDirOf cwd name).data.head? = some '/' := by
  unfold projectDirOf
  by_cases hn : name = "."
  · simpa [hn] using hcwd
  · simpa [hn] using (target_abs cwd name hcwd).1

theorem sourceWrites_plannedEffects (cwd : String) (answers : Answers) :
    ((writesOf (plannedEffects cwd answers)).drop 1).take 5 =
      (sourceFiles answers.language).map
        (fun f => (join (projectDirOf cwd answers.projectName) f.1, f.2)) := by
  rw [writesOf_plannedEffects]
  simp [sourceFiles]

theorem sourceFiles_typeScript :
    ∀ f ∈ sourceFiles "TypeScript",
      (splitOnChar '/' f.1.data).all isCleanSegment = true ∧
      endsWith f.1.data ".ts".data = true ∧
      ∀ s ∈ internalImports f.2, extname s = "" := by
  decide

theorem sourceFiles_javaScript :
    ∀ f ∈ sourceFiles "JavaScript",
      (splitOnChar '/' f.1.data).all isCleanSegment = true ∧
      endsWith f.1.data ".js".data = true ∧
      ∀ s ∈ internalImports f.2, endsWith s.data ".js".data = true := by
  decide

/-- C5: the five source files are the second to sixth files a run writes.  For TypeScript
each is written at a path ending in `.ts` and none of its internal imports (specifiers starting
with `./` or `../`) has a file extension; for JavaScript each is written at a path ending in
`.js` and every one of its internal imports ends with `.js`. -/
theorem source_file_extensions (npm : Installer) (cwd : String) (answers : Answers) (fs : FS)
    (path content : String) (hcwd : cwd.data.head? = some '/')
    (hmem : (path, content) ∈ ((writesOf (run npm cwd answers fs).2.trace).drop 1).take 5) :
    (answers.language = "TypeScript" →
      endsWith path.data ".ts".data = true ∧
      ∀ s ∈ internalImports content, extname s = "") ∧
    (answers.language = "JavaScript" →
      endsWith path.data ".js".data = true ∧
      ∀ s ∈ internalImports content, endsWith s.data ".js".data = true) ∧
    (execsOf (run npm cwd answers fs).2.trace ≠ [] →
      ((writesOf (run npm cwd answers fs).2.trace).drop 1).take 5 =
        (sourceFiles answers.language).map
          (fun f => (join (projectDirOf cwd answers.projectName) f.1, f.2))) := by
  have hpre := writesOf_isPrefix (run_fsEffects npm cwd answers fs)
  rw [writesOf_fsEffects] at hpre
  have hm := mem_slice_of_isPrefix hpre _ hmem
  rw [sourceWrites_plannedEffects, List.mem_map] at hm
  obtain ⟨f, hf, he⟩ := hm
  simp only [Prod.mk.injEq] at he
  obtain ⟨hp, hc⟩ := he
  have hd := projectDirOf_abs cwd answers.projectName hcwd
  refine ⟨?_, ?_, ?_⟩
  rotate_left 2
  · intro hx
    rcases run_execs npm cwd answers fs with ⟨h0, _⟩ | ⟨hall, _⟩
    · exact absurd h0 hx
    · rw [← writesOf_fsEffects, hall, sourceWrites_plannedEffects]
  · intro hl
    rw [hl] at hf
    obtain ⟨h1, h2, h3⟩ := sourceFiles_typeScript f hf
    refine ⟨?_, by rw [← hc]; exact h3⟩
    rw [← hp, join_abs_text _ _ hd (all_clean h1)]
    exact endsWith_append _ _ _ h2
  · intro hl
    rw [hl] at hf
    obtain ⟨h1, h2, h3⟩ := sourceFiles_javaScript f hf
    refine ⟨?_, by rw [← hc]; exact h3⟩
    rw [← hp, join_abs_text _ _ hd (all_clean h1)]
    exact endsWith_append _ _ _ h2

/-- C5 at a concrete run: `src/app.ts` of the TypeScript project `api`. -/
theorem source_file_extensions_witness :
    ((writesOf (run exampleNpm "/home/u" ⟨"api", "TypeScript", ""⟩
      exampleFs).2.trace).drop 1).take 5 =
      (sourceFiles "TypeScript").map (fun f => (join "/home/u/api" f.1, f.2)) ∧
    internalImports (trimStart appFileTypeScript) = ["./routes/index", "./middlewares/logger"] ∧
    endsWith "/home/u/api/src/app.ts".data ".ts".data = true ∧
    ∀ s ∈ internalImports (trimStart appFileTypeScript), extname s = "" :=
  ⟨by decide!, by decide!,
   (source_file_extensions exampleNpm "/home/u" ⟨"api", "TypeScript", ""⟩ exampleFs
      "/home/u/api/src/app.ts" (trimStart appFileTypeScript) (by decide)
      (by decide!)).1 rfl⟩

/-! ## Lemmas: the sentinel name and the readme -/

theorem absSegments_join_abs (dir rel : String) (hd : dir.data.head? = some '/')
    (hrel : ∀ s ∈ splitOnChar '/' rel.data, isCleanSegment s = true) :
    absSegments (join dir rel) = absSegments dir ++ splitOnChar '/' rel.data := by
  have hclean : ∀ s ∈ absSegments dir ++ splitOnChar '/' rel.data,
      isCleanSegment s = true := by
    intro s hs
    rcases List.mem_append.1 hs with h | h
    · exact absSegments_clean dir s h
    · exact hrel s h
  have hne : absSegments dir ++ splitOnChar '/' rel.data ≠ [] := by
    simp [splitOnChar_ne_nil]
  unfold absSegments
  rw [join_abs_data dir rel hd hrel, splitOnChar_cons_eq,
    splitOnChar_joinSegments _ hne (clean_no_slash hclean),
    normalizeSegments_step_empty,
    normalizeSegments_of_clean false _ [] (fun s hs => Or.inr (hclean s hs)),
    filter_clean hclean]
  simp [absSegments]

theorem join_abs_ne (dir rel : String) (hd : dir.data.head? = some '/')
    (hrel : (splitOnChar '/' rel.data).all isCleanSegment = true) : join dir rel ≠ dir := by
  intro h
  have e := absSegments_join_abs dir rel hd (all_clean hrel)
  rw [h] at e
  have : splitOnChar '/' rel.data = [] := by
    have := congrArg List.length e
    simp only [List.length_append] at this
    exact List.length_eq_zero.1 (by omega)
  exact splitOnChar_ne_nil _ _ this

theorem dropWhile_append_of_mem {α : Type} (p : α → Bool) (a b : List α)
    (h : ∃ x ∈ a, p x = false) : (a ++ b).dropWhile p = a.dropWhile p ++ b := by
  induction a with
  | nil => simp at h
  | cons x rest ih =>
    by_cases hx : p x = true
    · obtain ⟨y, hy, hpy⟩ := h
      simp only [List.mem_cons] at hy
      rcases hy with rfl | hy
      · rw [hx] at hpy; cases hpy
      · simp only [List.cons_append, List.dropWhile_cons, hx, if_true]
        exact ih ⟨y, hy, hpy⟩
    · simp [List.dropWhile_cons, hx]

theorem trimStart_append (a b : String) (h : ∃ x ∈ a.data, isJsWhitespace x = false) :
    trimStart (a ++ b) = trimStart a ++ b := by
  apply String.ext
  simp only [trimStart, String.data_append]
  exact dropWhile_append_of_mem _ _ _ h

theorem pkgName_eq (projectDir language : String) :
    pkgName projectDir language = basename projectDir := by
  by_cases hl : language = "JavaScript" <;>
    simp [pkgName, pkg, pkgLiteral, Json.set, Json.setIn, Json.get, getField, setField, hl]

/-- The readme as written ends with the quick-start block, whose first line changes into
`.` for the name `"."` and into the package name otherwise. -/
theorem readme_quick_start (name language ext projectName : String) :
    ∃ intro : String,
      trimStart (readme name language ext projectName) =
        intro ++ "```bash\ncd " ++ (if projectName = "." then "." else name) ++
          "\nnpm install\nnpm run dev\n```\n" := by
  refine ⟨trimStart ("\n" ++ "# " ++ name ++ "\n" ++ "\n" ++ "A simple Express " ++ language ++
    " starter generated with `create-express-app`.\n" ++ "\n" ++ "## 🚀 Folder Structure\n" ++
    "```\n" ++ ".\n" ++ " ├── src/\n" ++ " │   ├── routes/\n" ++ " │   ├── controllers/\n" ++
    " │   ├── middlewares/\n" ++ " │   └── app." ++ ext ++ "\n" ++ " ├── index." ++ ext ++
    "\n" ++ " ├── package.json\n" ++ " ├── .gitignore\n" ++ " └── README.md\n" ++ "```\n" ++
    "\n" ++ "## 🧰 Quick Start\n"), ?_⟩
  have hsplit : readme name language ext projectName =
      ("\n" ++ "# " ++ name ++ "\n" ++ "\n" ++ "A simple Express " ++ language ++
        " starter generated with `create-express-app`.\n" ++ "\n" ++
        "## 🚀 Folder Structure\n" ++
        "```\n" ++ ".\n" ++ " ├── src/\n" ++ " │   ├── routes/\n" ++
        " │   ├── controllers/\n" ++
        " │   ├── middlewares/\n" ++ " │   └── app." ++ ext ++ "\n" ++ " ├── index." ++ ext ++
        "\n" ++ " ├── package.json\n" ++ " ├── .gitignore\n" ++ " └── README.md\n" ++
        "```\n" ++ "\n" ++ "## 🧰 Quick Start\n") ++
      ("```bash\ncd " ++ (if projectName = "." then "." else name) ++
        "\nnpm install\nnpm run dev\n```\n") := by
    apply String.ext
    simp only [readme, String.data_append, List.append_assoc]
    rfl
  rw [hsplit, trimStart_append, String.append_assoc, String.append_assoc]
  · simp only [String.append_assoc]
  · refine ⟨'#', ?_, by decide⟩
    simp only [String.data_append, List.append_assoc, List.mem_append]
    right; left
    decide

theorem mkdirsOf_plannedEffects_sentinel (cwd : String) (answers : Answers)
    (hn : answers.projectName = ".") :
    mkdirsOf (plannedEffects cwd answers) =
      [(join cwd "src/routes", true), (join cwd "src/controllers", true),
       (join cwd "src/middlewares", true)] := by
  by_cases hl : answers.language = "TypeScript" <;>
    simp [plannedEffects, mkdirsOf, projectDirOf, hn, hl]

theorem writesOf_plannedEffects_last (cwd : String) (answers : Answers) :
    (writesOf (plannedEffects cwd answers)).getLast? =
      some (join (projectDirOf cwd answers.projectName) "README.md",
        trimStart (readme (pkgName (projectDirOf cwd answers.projectName) answers.language)
          answers.language (extOf answers.language) answers.projectName)) := by
  rw [writesOf_plannedEffects, List.map_append]
  simp only [List.map_cons, List.map_nil]
  rw [getLast?_append_cons]
  rfl

/-- C7: for the name `"."` (with `cwd` absolute) the target directory is the current working
directory, the only directories a run creates are the three folders below it, created
recursively, and `mkdir` is never called on the working directory itself.  For every name,
the last file written by a run that reaches the install step is `README.md`, and it ends with
the quick-start block whose first line is `cd .` for the name `"."` and `cd ` followed by
the final segment of the target directory otherwise. -/
theorem sentinel_and_quick_start (npm : Installer) (cwd : String) (answers : Answers)
    (fs : FS) (hcwd : cwd.data.head? = some '/') :
    (answers.projectName = "." →
      projectDirOf cwd answers.projectName = cwd ∧
      mkdirsOf (run npm cwd answers fs).2.trace <+:
        [(join cwd "src/routes", true), (join cwd "src/controllers", true),
         (join cwd "src/middlewares", true)] ∧
      ∀ r, (cwd, r) ∉ mkdirsOf (run npm cwd answers fs).2.trace) ∧
    (∀ path data, execsOf (run npm cwd answers fs).2.trace ≠ [] →
      (writesOf (run npm cwd answers fs).2.trace).getLast? = some (path, data) →
      path = join (projectDirOf cwd answers.projectName) "README.md" ∧
      ∃ intro : String,
        data = intro ++ "```bash\ncd " ++
          (if answers.projectName = "." then "."
            else basename (projectDirOf cwd answers.projectName)) ++
          "\nnpm install\nnpm run dev\n```\n") := by
  constructor
  · intro hn
    have hpre := mkdirsOf_isPrefix (run_fsEffects npm cwd answers fs)
    rw [mkdirsOf_fsEffects, mkdirsOf_plannedEffects_sentinel cwd answers hn] at hpre
    refine ⟨by simp [projectDirOf, hn], hpre, ?_⟩
    intro r hr
    have hmem := hpre.subset hr
    simp only [List.mem_cons, Prod.mk.injEq, List.mem_singleton, List.not_mem_nil,
      or_false] at hmem
    rcases hmem with ⟨h, _⟩ | ⟨h, _⟩ | ⟨h, _⟩
    · exact join_abs_ne cwd "src/routes" hcwd (by decide) h.symm
    · exact join_abs_ne cwd "src/controllers" hcwd (by decide) h.symm
    · exact join_abs_ne cwd "src/middlewares" hcwd (by decide) h.symm
  · intro path data hx hlast
    rcases run_execs npm cwd answers fs with ⟨h0, _⟩ | ⟨hall, _⟩
    · exact absurd h0 hx
    · rw [← writesOf_fsEffects, hall, writesOf_plannedEffects_last] at hlast
      simp only [Option.some.injEq, Prod.mk.injEq] at hlast
      obtain ⟨hp, hd⟩ := hlast
      refine ⟨hp.symm, ?_⟩
      obtain ⟨intro, hi⟩ := readme_quick_start
        (pkgName (projectDirOf cwd answers.projectName) answers.language)
        answers.language (extOf answers.language) answers.projectName
      rw [pkgName_eq] at hi
      exact ⟨intro, by rw [← hd, pkgName_eq]; exact hi⟩

/-- C7 at a concrete run: the name `"."` in `/home/u`. -/
theorem sentinel_and_quick_start_witness :
    mkdirsOf (run exampleNpm "/home/u" ⟨".", "JavaScript", ""⟩ exampleFs).2.trace =
      [("/home/u/src/routes", true), ("/home/u/src/controllers", true),
       ("/home/u/src/middlewares", true)] ∧
    endsWith (trimStart (readme "u" "JavaScript" "js" ".")).data
      "```bash\ncd .\nnpm install\nnpm run dev\n```\n".data = true ∧
    ∀ r, ("/home/u", r) ∉
      mkdirsOf (run exampleNpm "/home/u" ⟨".", "JavaScript", ""⟩ exampleFs).2.trace :=
  ⟨by decide!, by decide!,
   ((sentinel_and_quick_start exampleNpm "/home/u" ⟨".", "JavaScript", ""⟩ exampleFs
      (by decide)).1 rfl).2.2⟩

/-! ## Lemmas: references inside the generated project -/

theorem imports_resolve_typeScript :
    ∀ f ∈ sourceFiles "TypeScript", ∀ s ∈ internalImports f.2,
      resolveImport "TypeScript" f.1 s ∈ layout "TypeScript" := by
  decide

theorem imports_resolve_javaScript :
    ∀ f ∈ sourceFiles "JavaScript", ∀ s ∈ internalImports f.2,
      resolveImport "JavaScript" f.1 s ∈ layout "JavaScript" := by
  decide

theorem scriptOf_javaScript (projectDir : String) :
    scriptOf projectDir "JavaScript" "start" = some "node index.js" ∧
    scriptOf projectDir "JavaScript" "dev" = some "nodemon index.js" := by
  simp [scriptOf, pkg, pkgLiteral, Json.set, Json.setIn, Json.get, getField, setField]

theorem scriptOf_typeScript (projectDir : String) :
    scriptOf projectDir "TypeScript" "dev" = some "ts-node-dev --respawn index.ts" := by
  simp [scriptOf, pkg, pkgLiteral, Json.set, Json.setIn, Json.get, getField, setField]

/-- C10: on a fresh target, for JavaScript and for TypeScript, what a run writes is the layout
under the target directory, its second to sixth files being the five source files; every
internal import of a source file, resolved against the directory of that file (with `.ts`
appended for TypeScript), is a path of the layout; the file named by the `start` and `dev`
scripts for JavaScript (`index.js`), by the `dev` script for TypeScript (`index.ts`) and
listed in `tsconfig.include` is a path of the layout; and for TypeScript the `tsconfig.json`
holding that list is written. -/
theorem project_closed (npm : Installer) (cwd : String) (answers : Answers) (fs : FS)
    (hcwd : cwd.data.head? = some '/') (hname : answers.projectName ≠ ".")
    (hwf : WellFormed fs)
    (hnone : fs (fsKey (join cwd answers.projectName)) = none)
    (hparent : fs (fsKey (join cwd answers.projectName)).dropLast = some Node.dir)
    (hlang : answers.language = "JavaScript" ∨ answers.language = "TypeScript") :
    (writesOf (run npm cwd answers fs).2.trace).map Prod.fst =
      (layout answers.language).map (join (join cwd answers.projectName)) ∧
    ((writesOf (run npm cwd answers fs).2.trace).drop 1).take 5 =
      (sourceFiles answers.language).map
        (fun f => (join (join cwd answers.projectName) f.1, f.2)) ∧
    (∀ f ∈ sourceFiles answers.language, ∀ s ∈ internalImports f.2,
      resolveImport answers.language f.1 s ∈ layout answers.language) ∧
    (answers.language = "JavaScript" →
      (scriptOf (join cwd answers.projectName) answers.language "start").map lastWord =
        some "index.js" ∧
      (scriptOf (join cwd answers.projectName) answers.language "dev").map lastWord =
        some "index.js" ∧
      "index.js" ∈ layout answers.language) ∧
    (answers.language = "TypeScript" →
      (scriptOf (join cwd answers.projectName) answers.language "dev").map lastWord =
        some "index.ts" ∧
      "index.ts" ∈ tsconfigInclude ∧
      "index.ts" ∈ layout answers.language ∧
      (join (join cwd answers.projectName) "tsconfig.json", stringify2 tsconfig) ∈
        writesOf (run npm cwd answers fs).2.trace) := by
  have hrun := (run_fresh npm cwd answers fs hcwd hname hwf hnone hparent).1
  have hw : writesOf (run npm cwd answers fs).2.trace =
      writesOf (plannedEffects cwd answers) := by
    rw [← writesOf_fsEffects, hrun]
  have hpd : projectDirOf cwd answers.projectName = join cwd answers.projectName := by
    simp [projectDirOf, hname]
  refine ⟨?_, ?_, ?_, ?_, ?_⟩
  · rw [hw, writesOf_plannedEffects_paths, hpd]
  · rw [hw, sourceWrites_plannedEffects, hpd]
  · rcases hlang with hl | hl
    · rw [hl]; exact imports_resolve_javaScript
    · rw [hl]; exact imports_resolve_typeScript
  · intro hl
    rw [hl, (scriptOf_javaScript _).1, (scriptOf_javaScript _).2]
    decide
  · intro hl
    refine ⟨by rw [hl, scriptOf_typeScript]; decide, by decide, by rw [hl]; decide, ?_⟩
    rw [hw, writesOf_plannedEffects, hpd]
    simp [hl]

/-- C10 at a concrete run: TypeScript project `api` in `/home/u`. -/
theorem project_closed_witness :
    (sourceFiles "TypeScript").map
        (fun f => (f.1, (internalImports f.2).map (resolveImport "TypeScript" f.1))) =
      [("index.ts", ["src/app.ts"]),
       ("src/app.ts", ["src/routes/index.ts", "src/middlewares/logger.ts"]),
       ("src/routes/index.ts", ["src/controllers/home.ts"]),
       ("src/controllers/home.ts", []),
       ("src/middlewares/logger.ts", [])] ∧
    (writesOf (run exampleNpm "/home/u" ⟨"api", "TypeScript", ""⟩ exampleFs).2.trace).map
        Prod.fst =
      (layout "TypeScript").map (join (join "/home/u" "api")) :=
  ⟨by decide!,
   (project_closed exampleNpm "/home/u" ⟨"api", "TypeScript", ""⟩ exampleFs
      (by decide) (by decide) exampleFs_wellFormed (by decide) (by decide)
      (Or.inr rfl)).1⟩

end ExpressCli
